import Mathlib

/-!
# Verification of the `byte_coding` schema-driven binary codec

A shallow embedding of the `byte_coding` crate (runtime wire primitives in
`src/encodable.rs` / `src/decodable.rs`, and the schema compiler of
`byte_coding_derive`: attribute resolution, tag assignment, field ordering and
the semantics of the emitted encode/decode procedures), together with proofs
and refutations of the specified properties.

Byte buffers are modelled as `List Nat` (each element one byte).  Rust's
fallible decoders return `Option`; decoders that can also hit an unguarded
slice index are given an explicit `panicked` outcome.
-/

namespace ByteCoding

/-! ## Wire primitives: fixed-width little-endian integers

Models the `uN`/`iN` `Encodable::encode_to_buf` impls of `src/encodable.rs`
(`buf.extend_from_slice(&self.to_le_bytes())`) and the corresponding
`Decodable::decode_from_buf` impls of `src/decodable.rs`, which check
`buffer.len() < BYTES` and return `None` before reading, uniformly in the byte
width `w`. -/

/-- The `w` little-endian bytes of `n`, as produced by `to_le_bytes`. -/
def natToLEBytes : Nat → Nat → List Nat
  | 0, _ => []
  | w + 1, n => n % 256 :: natToLEBytes w (n / 256)

/-- The value of a little-endian byte string, as computed by `from_le_bytes`. -/
def natFromLEBytes : List Nat → Nat
  | [] => 0
  | b :: bs => b + 256 * natFromLEBytes bs

/-- Fixed-width little-endian decode: models the `uN::decode_from_buf` impls
(`if buffer.len() < BYTES { return None }` then `from_le_bytes` on the first
`BYTES` bytes, returning the remainder `&buffer[BYTES..]`). -/
def decodeNatLE (w : Nat) (buffer : List Nat) : Option (Nat × List Nat) :=
  if buffer.length < w then none
  else some (natFromLEBytes (buffer.take w), buffer.drop w)

theorem length_natToLEBytes (w n : Nat) : (natToLEBytes w n).length = w := by
  induction w generalizing n with
  | zero => rfl
  | succ w ih => simp [natToLEBytes, ih]

theorem natFromLEBytes_natToLEBytes (w n : Nat) (h : n < 256 ^ w) :
    natFromLEBytes (natToLEBytes w n) = n := by
  induction w generalizing n with
  | zero => simp [pow_zero, Nat.lt_one_iff] at h; simp [h, natToLEBytes, natFromLEBytes]
  | succ w ih =>
      have hdiv : n / 256 < 256 ^ w := by
        rw [Nat.div_lt_iff_lt_mul (by norm_num)]
        calc n < 256 ^ (w + 1) := h
        _ = 256 ^ w * 256 := by ring
      simp [natToLEBytes, natFromLEBytes, ih _ hdiv, Nat.mod_add_div]

theorem decodeNatLE_append (w n : Nat) (rest : List Nat) (h : n < 256 ^ w) :
    decodeNatLE w (natToLEBytes w n ++ rest) = some (n, rest) := by
  have hlen : (natToLEBytes w n).length = w := length_natToLEBytes w n
  unfold decodeNatLE
  rw [if_neg (by simp [hlen])]
  rw [List.take_left' hlen, List.drop_left' hlen]
  simp [natFromLEBytes_natToLEBytes w n h]

/-- Every byte emitted by `natToLEBytes` is a genuine byte. -/
theorem natToLEBytes_lt (w n : Nat) : ∀ b ∈ natToLEBytes w n, b < 256 := by
  induction w generalizing n with
  | zero => simp [natToLEBytes]
  | succ w ih =>
      intro b hb
      simp only [natToLEBytes, List.mem_cons] at hb
      rcases hb with h | h
      · exact h ▸ Nat.mod_lt _ (by norm_num)
      · exact ih _ _ h

/-! ## Run-time decode outcomes

Rust decoders return `Option<(T, &[u8])>`; `None` models a recoverable
failure.  Some impls additionally index the input slice without a bounds
check, which aborts the process; that implicit outcome is made explicit as
`panicked`. -/

/-- Outcome of running a Rust decoder: a value plus the unconsumed remainder,
a recoverable `None`, or an out-of-bounds slice-index abort. -/
inductive DecRes (α : Type) : Type
  | ok (value : α) (rest : List Nat)
  | fail
  | panicked
deriving DecidableEq

/-! ## `String::decode_from_buf` (src/decodable.rs lines 461-470)

```rust
let (len, buffer) = u64::decode_from_buf(buffer)?;
return Some((
    String::from_utf8(buffer[0..len as usize].to_vec()).ok()?,
    &buffer[len as usize..],
));
```

The length prefix is decoded with the bounds-checked `u64` decoder, but the
payload is then taken with `buffer[0..len]`, which is *not* bounds checked:
if `len` exceeds the remaining bytes the indexing operation aborts.  The
`from_utf8` validity check is modelled by `utf8Valid`. -/

/-- UTF-8 continuation byte (`0x80..=0xBF`). -/
def utf8Cont (c : Nat) : Bool := 0x80 ≤ c && c ≤ 0xBF

/-- Well-formed UTF-8, as accepted by `String::from_utf8` (RFC 3629: no
surrogates, no overlong forms, at most `U+10FFFF`). -/
def utf8Valid : List Nat → Bool
  | [] => true
  | b :: rest =>
    if b ≤ 0x7F then utf8Valid rest
    else if 0xC2 ≤ b && b ≤ 0xDF then
      match rest with
      | c1 :: r => utf8Cont c1 && utf8Valid r
      | [] => false
    else if b = 0xE0 then
      match rest with
      | c1 :: c2 :: r => (0xA0 ≤ c1 && c1 ≤ 0xBF) && utf8Cont c2 && utf8Valid r
      | _ => false
    else if (0xE1 ≤ b && b ≤ 0xEC) || b = 0xEE || b = 0xEF then
      match rest with
      | c1 :: c2 :: r => utf8Cont c1 && utf8Cont c2 && utf8Valid r
      | _ => false
    else if b = 0xED then
      match rest with
      | c1 :: c2 :: r => (0x80 ≤ c1 && c1 ≤ 0x9F) && utf8Cont c2 && utf8Valid r
      | _ => false
    else if b = 0xF0 then
      match rest with
      | c1 :: c2 :: c3 :: r => (0x90 ≤ c1 && c1 ≤ 0xBF) && utf8Cont c2 && utf8Cont c3 && utf8Valid r
      | _ => false
    else if 0xF1 ≤ b && b ≤ 0xF3 then
      match rest with
      | c1 :: c2 :: c3 :: r => utf8Cont c1 && utf8Cont c2 && utf8Cont c3 && utf8Valid r
      | _ => false
    else if b = 0xF4 then
      match rest with
      | c1 :: c2 :: c3 :: r => (0x80 ≤ c1 && c1 ≤ 0x8F) && utf8Cont c2 && utf8Cont c3 && utf8Valid r
      | _ => false
    else false

/-- `String::decode_from_buf`.  The string payload is represented by its byte
list.  The `panicked` branch models the unguarded `buffer[0..len]` slice
index; the subsequent `from_utf8(...).ok()?` is the `utf8Valid` test. -/
def string_decode_from_buf (buffer : List Nat) : DecRes (List Nat) :=
  match decodeNatLE 8 buffer with
  | none => .fail
  | some (len, buf2) =>
    if buf2.length < len then .panicked
    else if utf8Valid (buf2.take len) then .ok (buf2.take len) (buf2.drop len) else .fail

/-- `<&str as Encodable>::encode_to_buf` (src/encodable.rs lines 129-134):
8-byte little-endian length, then the raw bytes. -/
def str_encode_to_buf (s : List Nat) (buf : List Nat) : List Nat :=
  buf ++ natToLEBytes 8 s.length ++ s

/-! ## `<[bool; 8] as Encodable>::encode_to_buf` (src/encodable.rs lines 243-257)

```rust
let mut byte: u8 = 0b0000_0000;
for b in self {
    byte <<= 1;
    if *b { byte |= 0b0000_0001; }
}
byte.encode_to_buf(buf);
```
The `u8` shift wraps modulo 256. -/

/-- The packing loop of the `[bool; 8]` encoder. -/
def boolArr8Byte (a : List Bool) : Nat :=
  a.foldl (fun byte b => (byte * 2 % 256) ||| (if b then 1 else 0)) 0

/-- `<[bool; 8] as Encodable>::encode_to_buf`: pack the eight flags into one
byte (first element shifted to the most significant position) and append it. -/
def boolArr8_encode_to_buf (a : List Bool) (buf : List Nat) : List Nat :=
  buf ++ [boolArr8Byte a]

theorem boolArr8Byte_fold_lt (a : List Bool) :
    ∀ s : Nat, s < 256 →
      a.foldl (fun byte b => (byte * 2 % 256) ||| (if b then 1 else 0)) s < 256 := by
  induction a with
  | nil => intro s hs; simpa using hs
  | cons x xs ih =>
      intro s hs
      simp only [List.foldl_cons]
      apply ih
      have h1 : s * 2 % 256 < 256 := Nat.mod_lt _ (by norm_num)
      have h2 : (if x then 1 else 0) < 256 := by split <;> norm_num
      calc (s * 2 % 256) ||| (if x then 1 else 0) < 2 ^ 8 :=
            Nat.or_lt_two_pow (by simpa using h1) (by simpa using h2)
      _ = 256 := by norm_num

theorem boolArr8Byte_lt (a : List Bool) : boolArr8Byte a < 256 :=
  boolArr8Byte_fold_lt a 0 (by norm_num)

/-! ## `<[T; N] as Decodable>::decode_from_buf`, `bool_arr_optimization`, `T = bool`
(src/decodable.rs lines 378-419)

```rust
let mut res = Box::new([false; N]);
let bytes = N / 8 + if N % 8 != 0 { 1 } else { 0 };
let mut t = 0;
for i in 0..bytes {
    let b = buffer[i];
    for i in 0..8 {
        if t >= N { break; }
        if b & (1 << i) != 0 { res[t] = true; }
        t += 1;
    }
}
return Some((*b, &buffer[bytes..]));
```

The `buffer[i]` read is not bounds checked, so a buffer shorter than `bytes`
aborts; that is the `panicked` branch of `bool_arr_decode_from_buf`. -/

/-- The inner `for i in 0..8` loop: takes the list of remaining bit indices,
the element counter `t` and the result array; sets `res[t]` when bit `i` of
byte `b` is set and stops early once `t` reaches `N`. -/
def innerBitLoop (b N : Nat) : List Nat → Nat → List Bool → Nat × List Bool
  | [], t, res => (t, res)
  | i :: is, t, res =>
    if N ≤ t then (t, res)
    else innerBitLoop b N is (t + 1) (if b &&& (1 <<< i) ≠ 0 then res.set t true else res)

/-- The outer `for i in 0..bytes` loop over the byte indices still to read. -/
def outerByteLoop (buffer : List Nat) (N : Nat) : List Nat → Nat → List Bool → Nat × List Bool
  | [], t, res => (t, res)
  | i :: is, t, res =>
    let p := innerBitLoop (buffer.getD i 0) N (List.range 8) t res
    outerByteLoop buffer N is p.1 p.2

/-- `let bytes = N / 8 + if N % 8 != 0 { 1 } else { 0 };` -/
def boolArrBytes (N : Nat) : Nat := N / 8 + if N % 8 ≠ 0 then 1 else 0

/-- The `bool_arr_optimization` decode path for `[bool; N]`.  A buffer shorter
than `bytes` hits the unguarded `buffer[i]` index, modelled as `panicked`. -/
def bool_arr_decode_from_buf (N : Nat) (buffer : List Nat) : DecRes (List Bool) :=
  if buffer.length < boolArrBytes N then .panicked
  else
    .ok (outerByteLoop buffer N (List.range (boolArrBytes N)) 0 (List.replicate N false)).2
      (buffer.drop (boolArrBytes N))


theorem innerBitLoop_spec (b N : Nat) :
    ∀ (k c t : Nat) (res : List Bool), t ≤ N → res.length = N →
      (∀ p, t ≤ p → res.getD p false = false) →
      (innerBitLoop b N (List.range' c k) t res).1 = min (t + k) N ∧
      (innerBitLoop b N (List.range' c k) t res).2.length = N ∧
      ∀ p, (innerBitLoop b N (List.range' c k) t res).2.getD p false =
        if t ≤ p ∧ p < min (t + k) N then Nat.testBit b (c + (p - t))
        else res.getD p false := by
  intro k
  induction k with
  | zero =>
      intro c t res ht hlen _
      refine ⟨?_, ?_, ?_⟩
      · show t = min (t + 0) N
        omega
      · show res.length = N
        exact hlen
      · intro p
        show res.getD p false =
          if t ≤ p ∧ p < min (t + 0) N then Nat.testBit b (c + (p - t)) else res.getD p false
        rw [if_neg (by omega)]
  | succ k ih =>
      intro c t res ht hlen hfalse
      rw [List.range'_succ]
      by_cases hN : N ≤ t
      · have hunf : innerBitLoop b N (c :: List.range' (c + 1) k) t res = (t, res) := by
          simp only [innerBitLoop, if_pos hN]
        rw [hunf]
        refine ⟨?_, hlen, ?_⟩
        · show t = min (t + (k + 1)) N
          omega
        · intro p
          show res.getD p false =
            if t ≤ p ∧ p < min (t + (k + 1)) N then Nat.testBit b (c + (p - t))
            else res.getD p false
          rw [if_neg (by omega)]
      · have htN : t < N := by omega
        have key : b &&& 1 <<< c = (Nat.testBit b c).toNat * 2 ^ c := by
          rw [Nat.shiftLeft_eq, one_mul]; exact Nat.and_two_pow b c
        obtain ⟨res2, hres2⟩ :
            ∃ r, r = if b &&& 1 <<< c ≠ 0 then res.set t true else res := ⟨_, rfl⟩
        have hlen2 : res2.length = N := by
          rw [hres2]; split <;> simp [hlen]
        have hget2 : ∀ p, p ≠ t → res2.getD p false = res.getD p false := by
          intro p hp
          rw [hres2]; split
          · simp [List.getD_eq_getElem?_getD, List.getElem?_set_ne (Ne.symm hp)]
          · rfl
        have hget2t : res2.getD t false = Nat.testBit b c := by
          rw [hres2]
          cases hb : Nat.testBit b c
          · rw [if_neg (by simp [key, hb])]
            exact hfalse t le_rfl
          · rw [if_pos (by simp [key, hb])]
            simp [List.getD_eq_getElem?_getD, List.getElem?_set_self', hlen ▸ htN]
        have hfalse2 : ∀ p, t + 1 ≤ p → res2.getD p false = false := by
          intro p hp
          rw [hget2 p (by omega)]
          exact hfalse p (by omega)
        have hstep : innerBitLoop b N (c :: List.range' (c + 1) k) t res =
            innerBitLoop b N (List.range' (c + 1) k) (t + 1) res2 := by
          rw [hres2]
          simp only [innerBitLoop, if_neg hN]
        obtain ⟨ih1, ih2, ih3⟩ := ih (c + 1) (t + 1) res2 (by omega) hlen2 hfalse2
        refine ⟨?_, ?_, ?_⟩
        · rw [hstep, ih1]; omega
        · rw [hstep]; exact ih2
        · intro p
          rw [hstep, ih3 p]
          by_cases hp1 : t + 1 ≤ p ∧ p < min (t + 1 + k) N
          · rw [if_pos hp1, if_pos (by omega)]
            congr 1
            omega
          · rw [if_neg hp1]
            by_cases hpt : p = t
            · subst hpt
              rw [if_pos ⟨le_rfl, by omega⟩, hget2t]
              congr 1
              omega
            · rw [hget2 p hpt, if_neg (by omega)]

theorem outerByteLoop_spec (buffer : List Nat) (N : Nat) :
    ∀ (m i0 : Nat) (res : List Bool), res.length = N →
      (∀ p, p < min (8 * i0) N → res.getD p false =
        Nat.testBit (buffer.getD (p / 8) 0) (p % 8)) →
      (∀ p, min (8 * i0) N ≤ p → res.getD p false = false) →
      (outerByteLoop buffer N (List.range' i0 m) (min (8 * i0) N) res).1 =
        min (8 * (i0 + m)) N ∧
      (outerByteLoop buffer N (List.range' i0 m) (min (8 * i0) N) res).2.length = N ∧
      ∀ p, p < min (8 * (i0 + m)) N →
        (outerByteLoop buffer N (List.range' i0 m) (min (8 * i0) N) res).2.getD p false =
          Nat.testBit (buffer.getD (p / 8) 0) (p % 8) := by
  intro m
  induction m with
  | zero =>
      intro i0 res hlen hdone _
      refine ⟨?_, ?_, ?_⟩
      · show min (8 * i0) N = min (8 * (i0 + 0)) N
        omega
      · show res.length = N
        exact hlen
      · intro p hp
        exact hdone p (by omega)
  | succ m ih =>
      intro i0 res hlen hdone hfalse
      rw [List.range'_succ]
      have hmin : min (8 * i0) N ≤ N := Nat.min_le_right _ _
      obtain ⟨h1, h2, h3⟩ := innerBitLoop_spec (buffer.getD i0 0) N 8 0
        (min (8 * i0) N) res hmin hlen hfalse
      set q := innerBitLoop (buffer.getD i0 0) N (List.range' 0 8) (min (8 * i0) N) res
        with hq
      have hstep : outerByteLoop buffer N (i0 :: List.range' (i0 + 1) m) (min (8 * i0) N) res =
          outerByteLoop buffer N (List.range' (i0 + 1) m) q.1 q.2 := by
        simp only [outerByteLoop, List.range_eq_range']
      have hq1 : q.1 = min (8 * (i0 + 1)) N := by rw [h1]; omega
      have hq2new : ∀ p, p < min (8 * (i0 + 1)) N →
          q.2.getD p false = Nat.testBit (buffer.getD (p / 8) 0) (p % 8) := by
        intro p hp
        rw [h3 p]
        by_cases hpl : p < min (8 * i0) N
        · rw [if_neg (by omega)]
          exact hdone p hpl
        · have hge : min (8 * i0) N ≤ p := by omega
          have h8 : 8 * i0 ≤ N := by
            by_contra hcon
            have : min (8 * i0) N = N := by omega
            omega
          have hmin0 : min (8 * i0) N = 8 * i0 := by omega
          rw [if_pos ⟨hge, by omega⟩]
          have hdiv : p / 8 = i0 := by omega
          have hmod : p % 8 = p - min (8 * i0) N := by omega
          rw [hdiv, hmod]
          simp
      have hq2false : ∀ p, min (8 * (i0 + 1)) N ≤ p → q.2.getD p false = false := by
        intro p hp
        rw [h3 p, if_neg (by omega)]
        exact hfalse p (by omega)
      rw [hq1] at hstep
      obtain ⟨g1, g2, g3⟩ := ih (i0 + 1) q.2 h2 hq2new hq2false
      refine ⟨?_, ?_, ?_⟩
      · rw [hstep, g1]; omega
      · rw [hstep]; exact g2
      · intro p hp
        rw [hstep]
        exact g3 p (by omega)

/-! ## Field attributes and the field orderer
(byte_coding_derive/src/byte_coding_attr.rs)

`ByteCodingStructFieldAttr` (lines 30-33) carries the per-field configuration;
`orderno_cmp` (lines 448-462) is the comparator handed to the stable
`sort_by` of the generated-code emitters.  Rust's `slice::sort_by` is a stable
sort; it is modelled by a stable insertion sort `sortOrd` driven by the same
comparator (equal elements are inserted after existing ones, preserving the
original relative order, which is exactly the stable-sort contract). -/

/-- `ByteCodingStructFieldAttr`: optional explicit order number, ignore flag. -/
structure ByteCodingStructFieldAttr where
  order_no : Option Nat
  ignore : Bool
deriving DecidableEq

/-- `ByteCodingStructFieldAttr::orderno_cmp`: explicit order numbers compare
numerically, an explicit number sorts before `None`, two `None`s are equal. -/
def orderno_cmp (a b : ByteCodingStructFieldAttr) : Ordering :=
  match a.order_no with
  | some s_ono =>
    match b.order_no with
    | some o_ono => if s_ono < o_ono then .lt else if s_ono = o_ono then .eq else .gt
    | none => .lt
  | none =>
    match b.order_no with
    | some _ => .gt
    | none => .eq

theorem orderno_cmp_lt_of_lt_of_not_gt {a b c : ByteCodingStructFieldAttr}
    (h1 : orderno_cmp a b = .lt) (h2 : orderno_cmp b c ≠ .gt) :
    orderno_cmp a c = .lt := by
  obtain ⟨ao, ai⟩ := a; obtain ⟨bo, bi⟩ := b; obtain ⟨co, ci⟩ := c
  cases ao <;> cases bo <;> cases co <;>
    simp only [orderno_cmp] at h1 h2 ⊢ <;> (try split_ifs at *) <;>
    (try simp_all) <;> (try omega) <;> (try rfl)

theorem orderno_cmp_eq_symm {a b : ByteCodingStructFieldAttr}
    (h : orderno_cmp a b = .eq) : orderno_cmp b a = .eq := by
  obtain ⟨ao, ai⟩ := a; obtain ⟨bo, bi⟩ := b
  cases ao <;> cases bo <;>
    simp only [orderno_cmp] at h ⊢ <;> (try split_ifs at *) <;>
    (try simp_all) <;> (try omega) <;> (try rfl)

theorem orderno_cmp_lt_of_gt {a b : ByteCodingStructFieldAttr}
    (h : orderno_cmp a b = .gt) : orderno_cmp b a = .lt := by
  obtain ⟨ao, ai⟩ := a; obtain ⟨bo, bi⟩ := b
  cases ao <;> cases bo <;>
    simp only [orderno_cmp] at h ⊢ <;> (try split_ifs at *) <;>
    (try simp_all) <;> (try omega) <;> (try rfl)

/-- Stable insertion: the new element is placed before the first strictly
greater element, hence after every element it compares equal to. -/
def insertOrd {α : Type} (cmp : α → α → Ordering) (x : α) : List α → List α
  | [] => [x]
  | y :: ys =>
    match cmp x y with
    | .lt => x :: y :: ys
    | _ => y :: insertOrd cmp x ys

/-- Stable sort by a comparator; models `slice::sort_by`. -/
def sortOrd {α : Type} (cmp : α → α → Ordering) (l : List α) : List α :=
  l.foldl (fun acc x => insertOrd cmp x acc) []

theorem insertOrd_perm {α : Type} (cmp : α → α → Ordering) (x : α) (l : List α) :
    List.Perm (insertOrd cmp x l) (x :: l) := by
  induction l with
  | nil => rfl
  | cons y ys ih =>
      simp only [insertOrd]
      cases cmp x y with
      | lt => rfl
      | eq => exact ((ih.cons y).trans (List.Perm.swap x y ys))
      | gt => exact ((ih.cons y).trans (List.Perm.swap x y ys))

theorem mem_insertOrd {α : Type} {cmp : α → α → Ordering} {x w : α} {l : List α} :
    w ∈ insertOrd cmp x l ↔ w = x ∨ w ∈ l := by
  rw [(insertOrd_perm cmp x l).mem_iff, List.mem_cons]

theorem sortOrd_perm {α : Type} (cmp : α → α → Ordering) (l : List α) :
    List.Perm (sortOrd cmp l) l := by
  suffices h : ∀ acc : List α,
      List.Perm (l.foldl (fun acc x => insertOrd cmp x acc) acc) (acc ++ l) by
    simpa using h []
  induction l with
  | nil => intro acc; simp
  | cons x xs ih =>
      intro acc
      simp only [List.foldl_cons]
      refine (ih (insertOrd cmp x acc)).trans ?_
      refine (List.Perm.append_right xs (insertOrd_perm cmp x acc)).trans ?_
      exact List.perm_middle.symm

section SortLemmas

variable {α β : Type} (fa : α → ByteCodingStructFieldAttr) (ix : α → Nat)

/-- `a` belongs before `b` in the resolved serialization order: strictly
smaller comparator key, or equal keys and `a` declared first (stability of
`sort_by`). -/
def goodOrder (a b : α) : Prop :=
  orderno_cmp (fa a) (fa b) = .lt ∨
    (orderno_cmp (fa a) (fa b) = .eq ∧ ix a < ix b)

/-- Weak sortedness relation: `a` does not compare strictly greater than `b`. -/
def leOrder (a b : α) : Prop := orderno_cmp (fa a) (fa b) ≠ .gt

theorem pairwise_insertOrd (x : α) (l : List α)
    (hl : l.Pairwise (goodOrder fa ix))
    (hidx : ∀ y ∈ l, ix y < ix x) :
    (insertOrd (fun a b => orderno_cmp (fa a) (fa b)) x l).Pairwise (goodOrder fa ix) := by
  induction l with
  | nil => simp [insertOrd]
  | cons y ys ih =>
      rw [List.pairwise_cons] at hl
      obtain ⟨hy, hys⟩ := hl
      simp only [insertOrd]
      cases hcmp : orderno_cmp (fa x) (fa y) with
      | lt =>
          rw [List.pairwise_cons]
          constructor
          · intro z hz
            rcases List.mem_cons.mp hz with rfl | hz'
            · exact Or.inl hcmp
            · rcases hy z hz' with hlt | ⟨heq, _⟩
              · exact Or.inl (orderno_cmp_lt_of_lt_of_not_gt hcmp (by simp [hlt]))
              · exact Or.inl (orderno_cmp_lt_of_lt_of_not_gt hcmp (by simp [heq]))
          · rw [List.pairwise_cons]
            exact ⟨hy, hys⟩
      | eq =>
          rw [List.pairwise_cons]
          refine ⟨?_, ih hys (fun z hz => hidx z (List.mem_cons_of_mem y hz))⟩
          intro w hw
          rcases mem_insertOrd.mp hw with rfl | hw'
          · exact Or.inr ⟨orderno_cmp_eq_symm hcmp, hidx y (List.mem_cons_self y ys)⟩
          · exact hy w hw'
      | gt =>
          rw [List.pairwise_cons]
          refine ⟨?_, ih hys (fun z hz => hidx z (List.mem_cons_of_mem y hz))⟩
          intro w hw
          rcases mem_insertOrd.mp hw with rfl | hw'
          · exact Or.inl (orderno_cmp_lt_of_gt hcmp)
          · exact hy w hw'

theorem pairwise_foldl_insertOrd :
    ∀ (l acc : List α), acc.Pairwise (goodOrder fa ix) →
      (∀ a ∈ acc, ∀ b ∈ l, ix a < ix b) →
      l.Pairwise (fun a b => ix a < ix b) →
      (l.foldl (fun acc x => insertOrd (fun a b => orderno_cmp (fa a) (fa b)) x acc)
        acc).Pairwise (goodOrder fa ix)
  | [], acc, hacc, _, _ => by simpa using hacc
  | x :: xs, acc, hacc, hcross, hl => by
      simp only [List.foldl_cons]
      rw [List.pairwise_cons] at hl
      apply pairwise_foldl_insertOrd xs
      · exact pairwise_insertOrd fa ix x acc hacc
          (fun y hy => hcross y hy x (List.mem_cons_self x xs))
      · intro a ha b hb
        rcases mem_insertOrd.mp ha with rfl | ha'
        · exact hl.1 b hb
        · exact hcross a ha' b (List.mem_cons_of_mem x hb)
      · exact hl.2

/-- Stability and sortedness of the modelled `sort_by`: on input listed in
declaration order (strictly increasing `ix`), every pair of the output is in
`goodOrder`: ascending comparator key, ties broken by declaration order. -/
theorem pairwise_sortOrd (l : List α) (hIdx : l.Pairwise (fun a b => ix a < ix b)) :
    (sortOrd (fun a b => orderno_cmp (fa a) (fa b)) l).Pairwise (goodOrder fa ix) :=
  pairwise_foldl_insertOrd fa ix l [] (by simp) (by simp) hIdx

theorem pairwise_le_insertOrd (x : α) (l : List α) (hl : l.Pairwise (leOrder fa)) :
    (insertOrd (fun a b => orderno_cmp (fa a) (fa b)) x l).Pairwise (leOrder fa) := by
  induction l with
  | nil => simp [insertOrd]
  | cons y ys ih =>
      rw [List.pairwise_cons] at hl
      obtain ⟨hy, hys⟩ := hl
      simp only [insertOrd]
      cases hcmp : orderno_cmp (fa x) (fa y) with
      | lt =>
          rw [List.pairwise_cons]
          constructor
          · intro z hz
            rcases List.mem_cons.mp hz with rfl | hz'
            · simp [leOrder, hcmp]
            · have : orderno_cmp (fa x) (fa z) = .lt :=
                orderno_cmp_lt_of_lt_of_not_gt hcmp (hy z hz')
              simp [leOrder, this]
          · rw [List.pairwise_cons]
            exact ⟨hy, hys⟩
      | eq =>
          rw [List.pairwise_cons]
          refine ⟨?_, ih hys⟩
          intro w hw
          rcases mem_insertOrd.mp hw with rfl | hw'
          · simp [leOrder, orderno_cmp_eq_symm hcmp]
          · exact hy w hw'
      | gt =>
          rw [List.pairwise_cons]
          refine ⟨?_, ih hys⟩
          intro w hw
          rcases mem_insertOrd.mp hw with rfl | hw'
          · simp [leOrder, orderno_cmp_lt_of_gt hcmp]
          · exact hy w hw'

theorem filter_insertOrd (p : α → Bool) (x : α) (l : List α)
    (hl : l.Pairwise (leOrder fa)) :
    (insertOrd (fun a b => orderno_cmp (fa a) (fa b)) x l).filter p =
      if p x then insertOrd (fun a b => orderno_cmp (fa a) (fa b)) x (l.filter p)
      else l.filter p := by
  induction l with
  | nil =>
      by_cases hpx : p x <;> simp [insertOrd, hpx]
  | cons y ys ih =>
      rw [List.pairwise_cons] at hl
      obtain ⟨hy, hys⟩ := hl
      have hins : ∀ m : List α, (∀ z ∈ m, z ∈ ys) →
          orderno_cmp (fa x) (fa y) = .lt →
          insertOrd (fun a b => orderno_cmp (fa a) (fa b)) x m = x :: m := by
        intro m hm hcmp
        cases m with
        | nil => rfl
        | cons z zs =>
            have hz : orderno_cmp (fa x) (fa z) = .lt :=
              orderno_cmp_lt_of_lt_of_not_gt hcmp (hy z (hm z (List.mem_cons_self z zs)))
            simp [insertOrd, hz]
      simp only [insertOrd]
      cases hcmp : orderno_cmp (fa x) (fa y) with
      | lt =>
          by_cases hpx : p x
          · by_cases hpy : p y
            · simp [List.filter_cons, hpx, hpy, insertOrd, hcmp]
            · rw [if_pos hpx]
              have hrw := hins (ys.filter p) (fun z hz => List.mem_of_mem_filter hz) hcmp
              simp [List.filter_cons, hpx, hpy, hrw]
          · simp [List.filter_cons, hpx]
      | eq =>
          by_cases hpx : p x <;> by_cases hpy : p y <;>
            simp [List.filter_cons, hpx, hpy, ih hys, insertOrd, hcmp]
      | gt =>
          by_cases hpx : p x <;> by_cases hpy : p y <;>
            simp [List.filter_cons, hpx, hpy, ih hys, insertOrd, hcmp]

theorem filter_foldl_insertOrd (p : α → Bool) :
    ∀ (l acc : List α), acc.Pairwise (leOrder fa) →
      (l.foldl (fun acc x => insertOrd (fun a b => orderno_cmp (fa a) (fa b)) x acc)
          acc).filter p =
        (l.filter p).foldl
          (fun acc x => insertOrd (fun a b => orderno_cmp (fa a) (fa b)) x acc)
          (acc.filter p)
  | [], acc, _ => by simp
  | x :: xs, acc, hacc => by
      simp only [List.foldl_cons, List.filter_cons]
      have hrec := filter_foldl_insertOrd p xs
        (insertOrd (fun a b => orderno_cmp (fa a) (fa b)) x acc)
        (pairwise_le_insertOrd fa x acc hacc)
      rw [hrec, filter_insertOrd fa p x acc hacc]
      by_cases hpx : p x <;> simp [hpx]

/-- The stable sort commutes with filtering. -/
theorem filter_sortOrd (p : α → Bool) (l : List α) :
    (sortOrd (fun a b => orderno_cmp (fa a) (fa b)) l).filter p =
      sortOrd (fun a b => orderno_cmp (fa a) (fa b)) (l.filter p) := by
  have h := filter_foldl_insertOrd fa p l [] (by simp)
  simpa [sortOrd] using h

theorem map_insertOrd (g : α → β) (gb : β → ByteCodingStructFieldAttr)
    (hg : ∀ a, gb (g a) = fa a) (x : α) (l : List α) :
    (insertOrd (fun a b => orderno_cmp (fa a) (fa b)) x l).map g =
      insertOrd (fun a b => orderno_cmp (gb a) (gb b)) (g x) (l.map g) := by
  induction l with
  | nil => rfl
  | cons y ys ih =>
      simp only [insertOrd, List.map_cons, hg]
      cases hcmp : orderno_cmp (fa x) (fa y) <;> simp [hcmp, ih]

theorem map_foldl_insertOrd (g : α → β) (gb : β → ByteCodingStructFieldAttr)
    (hg : ∀ a, gb (g a) = fa a) :
    ∀ (l acc : List α),
      (l.foldl (fun acc x => insertOrd (fun a b => orderno_cmp (fa a) (fa b)) x acc)
          acc).map g =
        (l.map g).foldl
          (fun acc x => insertOrd (fun a b => orderno_cmp (gb a) (gb b)) x acc)
          (acc.map g)
  | [], acc => by simp
  | x :: xs, acc => by
      simp only [List.foldl_cons, List.map_cons]
      rw [map_foldl_insertOrd g gb hg xs, map_insertOrd fa g gb hg]

/-- The stable sort commutes with mapping along a key-preserving projection. -/
theorem map_sortOrd (g : α → β) (gb : β → ByteCodingStructFieldAttr)
    (hg : ∀ a, gb (g a) = fa a) (l : List α) :
    (sortOrd (fun a b => orderno_cmp (fa a) (fa b)) l).map g =
      sortOrd (fun a b => orderno_cmp (gb a) (gb b)) (l.map g) := by
  have h := map_foldl_insertOrd fa g gb hg l []
  simpa [sortOrd] using h

end SortLemmas

theorem insertOrd_eq_append {α : Type} (cmp : α → α → Ordering) (x : α) (l : List α)
    (h : ∀ y ∈ l, cmp x y ≠ .lt) : insertOrd cmp x l = l ++ [x] := by
  induction l with
  | nil => rfl
  | cons y ys ih =>
      simp only [insertOrd]
      cases hcmp : cmp x y with
      | lt => exact absurd hcmp (h y (List.mem_cons_self y ys))
      | eq => rw [ih (fun z hz => h z (List.mem_cons_of_mem y hz))]; rfl
      | gt => rw [ih (fun z hz => h z (List.mem_cons_of_mem y hz))]; rfl

theorem foldl_insertOrd_eq_append {α : Type} (cmp : α → α → Ordering) :
    ∀ (l acc : List α), (∀ x ∈ l, ∀ a ∈ acc, cmp x a ≠ .lt) →
      (∀ a ∈ l, ∀ b ∈ l, cmp a b ≠ .lt) →
      l.foldl (fun acc x => insertOrd cmp x acc) acc = acc ++ l
  | [], acc, _, _ => by simp
  | x :: xs, acc, hcross, hl => by
      simp only [List.foldl_cons]
      rw [insertOrd_eq_append cmp x acc (fun a ha => hcross x (List.mem_cons_self x xs) a ha)]
      rw [foldl_insertOrd_eq_append cmp xs (acc ++ [x]) ?_ ?_]
      · simp
      · intro y hy a ha
        rcases List.mem_append.mp ha with ha' | ha'
        · exact hcross y (List.mem_cons_of_mem x hy) a ha'
        · rw [List.mem_singleton.mp ha']
          exact hl y (List.mem_cons_of_mem x hy) x (List.mem_cons_self x xs)
      · intro a ha b hb
        exact hl a (List.mem_cons_of_mem x ha) b (List.mem_cons_of_mem x hb)

/-- When no element must move (no two elements compare `lt` in either order),
the stable sort is the identity: nothing is reordered. -/
theorem sortOrd_eq_self {α : Type} (cmp : α → α → Ordering) (l : List α)
    (h : ∀ a ∈ l, ∀ b ∈ l, cmp a b ≠ .lt) : sortOrd cmp l = l := by
  have := foldl_insertOrd_eq_append cmp l [] (by simp) h
  simpa [sortOrd] using this

/-! ## A universe of field values

The generated code calls back into the `Encodable`/`Decodable` impls of each
payload field's type.  The embedding fixes a representative universe of field
types — the fixed-width unsigned integers and `Option` — whose impls are all
in src/encodable.rs and src/decodable.rs. -/

/-- Field types of the embedded universe. -/
inductive FTy : Type
  | u8T | u16T | u32T | u64T
  | optT (t : FTy)
deriving DecidableEq

/-- Field values of the embedded universe. -/
inductive FVal : Type
  | u8V (n : Nat) | u16V (n : Nat) | u32V (n : Nat) | u64V (n : Nat)
  | noneV (t : FTy)
  | someV (v : FVal)
deriving DecidableEq

/-- The type of a value. -/
def FVal.tyOf : FVal → FTy
  | .u8V _ => .u8T
  | .u16V _ => .u16T
  | .u32V _ => .u32T
  | .u64V _ => .u64T
  | .noneV t => .optT t
  | .someV v => .optT v.tyOf

/-- Rust-side typing: each machine integer fits its declared width. -/
def FVal.wf : FVal → Prop
  | .u8V n => n < 256 ^ 1
  | .u16V n => n < 256 ^ 2
  | .u32V n => n < 256 ^ 4
  | .u64V n => n < 256 ^ 8
  | .noneV _ => True
  | .someV v => v.wf

instance FVal.wf.decidable : ∀ v : FVal, Decidable v.wf
  | .u8V n => inferInstanceAs (Decidable (n < 256 ^ 1))
  | .u16V n => inferInstanceAs (Decidable (n < 256 ^ 2))
  | .u32V n => inferInstanceAs (Decidable (n < 256 ^ 4))
  | .u64V n => inferInstanceAs (Decidable (n < 256 ^ 8))
  | .noneV _ => inferInstanceAs (Decidable True)
  | .someV v => FVal.wf.decidable v

/-- `Default::default()` of each field type (integers default to 0, `Option`
to `None`); the decode side initializes ignored fields with it. -/
def FTy.defVal : FTy → FVal
  | .u8T => .u8V 0
  | .u16T => .u16V 0
  | .u32T => .u32V 0
  | .u64T => .u64V 0
  | .optT t => .noneV t

/-- `Encodable::encode_to_buf` over the universe: integers append their
little-endian bytes (src/encodable.rs lines 142-163); `Option` appends one
presence byte then the payload if present (lines 117-127). -/
def encodeValToBuf : FVal → List Nat → List Nat
  | .u8V n, buf => buf ++ natToLEBytes 1 n
  | .u16V n, buf => buf ++ natToLEBytes 2 n
  | .u32V n, buf => buf ++ natToLEBytes 4 n
  | .u64V n, buf => buf ++ natToLEBytes 8 n
  | .noneV _, buf => buf ++ natToLEBytes 1 0
  | .someV v, buf => encodeValToBuf v (buf ++ natToLEBytes 1 1)

/-- `Decodable::decode_from_buf` over the universe (src/decodable.rs lines
129-178 for the integers, 449-459 for `Option`). -/
def decodeVal : FTy → List Nat → Option (FVal × List Nat)
  | .u8T, buffer => (decodeNatLE 1 buffer).map (fun r => (.u8V r.1, r.2))
  | .u16T, buffer => (decodeNatLE 2 buffer).map (fun r => (.u16V r.1, r.2))
  | .u32T, buffer => (decodeNatLE 4 buffer).map (fun r => (.u32V r.1, r.2))
  | .u64T, buffer => (decodeNatLE 8 buffer).map (fun r => (.u64V r.1, r.2))
  | .optT t, buffer =>
    match decodeNatLE 1 buffer with
    | none => none
    | some (present, buf2) =>
      if present = 0 then some (.noneV t, buf2)
      else (decodeVal t buf2).map (fun r => (.someV r.1, r.2))

/-- `encode_to_buf` only appends: the pre-existing buffer is untouched. -/
theorem encodeValToBuf_append (v : FVal) (buf : List Nat) :
    encodeValToBuf v buf = buf ++ encodeValToBuf v [] := by
  induction v generalizing buf with
  | someV v ih =>
      simp only [encodeValToBuf, List.nil_append]
      rw [ih (buf ++ natToLEBytes 1 1), ih (natToLEBytes 1 1)]
      simp
  | u8V n => simp [encodeValToBuf]
  | u16V n => simp [encodeValToBuf]
  | u32V n => simp [encodeValToBuf]
  | u64V n => simp [encodeValToBuf]
  | noneV t => simp [encodeValToBuf]

/-- Primitive round-trip: decoding at the value's type consumes exactly the
bytes the encoder appended and returns the value. -/
theorem decodeVal_encodeVal (v : FVal) (rest : List Nat) (hwf : v.wf) :
    decodeVal v.tyOf (encodeValToBuf v [] ++ rest) = some (v, rest) := by
  induction v generalizing rest with
  | u8V n =>
      simp [FVal.tyOf, encodeValToBuf, decodeVal, decodeNatLE_append 1 n rest hwf]
  | u16V n =>
      simp [FVal.tyOf, encodeValToBuf, decodeVal, decodeNatLE_append 2 n rest hwf]
  | u32V n =>
      simp [FVal.tyOf, encodeValToBuf, decodeVal, decodeNatLE_append 4 n rest hwf]
  | u64V n =>
      simp [FVal.tyOf, encodeValToBuf, decodeVal, decodeNatLE_append 8 n rest hwf]
  | noneV t =>
      simp [FVal.tyOf, encodeValToBuf, decodeVal, decodeNatLE_append 1 0 rest (by norm_num)]
  | someV v ih =>
      have hv : v.wf := hwf
      simp only [FVal.tyOf, encodeValToBuf, decodeVal, List.nil_append]
      rw [encodeValToBuf_append v (natToLEBytes 1 1), List.append_assoc]
      rw [decodeNatLE_append 1 1 (encodeValToBuf v [] ++ rest) (by norm_num)]
      simp [ih rest hv]

/-! ## Union tag assignment
(byte_coding_derive/src/parsing.rs; `generate_enum_code` in encoding.rs and
decoding.rs) -/

/-- `ByteCodingEnumVariantAttr`: optional explicit tag value (a `u128`). -/
structure ByteCodingEnumVariantAttr where
  value : Option Nat
deriving DecidableEq

/-- `EnumEncodingType`: the configurable tag width. -/
inductive EnumEncodingType : Type
  | u8 | u16 | u32 | u64 | u128
deriving DecidableEq

/-- Byte width of a configured tag type. -/
def EnumEncodingType.bytes : EnumEncodingType → Nat
  | .u8 => 1
  | .u16 => 2
  | .u32 => 4
  | .u64 => 8
  | .u128 => 16

/-- `ByteCodingEnumAttr`: optional tag width plus the inferred-values flag. -/
structure ByteCodingEnumAttr where
  encoding_type : Option EnumEncodingType
  inferred_values : Bool
deriving DecidableEq

/-- A declared union variant: its merged `byte_coding` attribute, its
language-native discriminant (present only when it is a base-10 integer
literal, the only accepted form), and its payload field types in declaration
order. -/
structure VariantDecl where
  attr : ByteCodingEnumVariantAttr
  disc : Option Nat
  fields : List FTy
deriving DecidableEq

/-- Resolution-time diagnostics (the emitted `compile_error!` messages). -/
inductive Diag : Type
  | noDiscriminantOrValue
  | duplicateValue
  | valueTooLargeU16
  | valueTooLargeForType
deriving DecidableEq

/-- `parse_enum_variant_value` (parsing.rs lines 44-75): fail when no source
is available; resolve with precedence explicit attribute value, then
discriminant, then the inferred default; reject a value already used by an
earlier variant of the same union (the final `found_values` test of lines
66-72, split out as `checkDuplicate`; the caller records the accepted value in
its running state). -/
def checkDuplicate (value : Nat) (found_values : List Nat) : Except Diag Nat :=
  if value ∈ found_values then .error .duplicateValue else .ok value

def parse_enum_variant_value (default_value : Option Nat) (v : VariantDecl)
    (found_values : List Nat) : Except Diag Nat :=
  if v.disc = none ∧ v.attr.value = none ∧ default_value = none then
    .error .noDiscriminantOrValue
  else
    checkDuplicate
      (match v.attr.value with
        | some x => x
        | none =>
          match v.disc with
          | some d => d
          | none => default_value.getD 0)
      found_values

/-- Running state of the tag-assignment pass: the `found_values` set and the
inferred-tag accumulator `last_value`. -/
structure ResState where
  found_values : List Nat
  last_value : Option Nat
deriving DecidableEq

/-- `enum_options.is_some() && enum_options.unwrap().inferred_values`. -/
def inferredOf (opts : Option ByteCodingEnumAttr) : Bool :=
  match opts with
  | some o => o.inferred_values
  | none => false

/-- The configured encoding type, when any annotation block set one. -/
def encTypeOf (opts : Option ByteCodingEnumAttr) : Option EnumEncodingType :=
  match opts with
  | some o => o.encoding_type
  | none => none

/-- The per-variant steps shared verbatim by the encode and decode emitters
(encoding.rs lines 110-124, decoding.rs lines 122-136): advance the inferred
candidate (`last_value.wrapping_add(1)`, or 0 when empty), resolve the value
with `parse_enum_variant_value`, then reseed the accumulator to the chosen
value when inference is on. -/
def inferredCandidate (inferred : Bool) (last_value : Option Nat) : Option Nat :=
  if inferred then
    some
      (match last_value with
        | some n => (n + 1) % 2 ^ 128
        | none => 0)
  else none

def tagParseStep (inferred : Bool) (st : ResState) (v : VariantDecl) :
    Except Diag (Nat × ResState) :=
  match parse_enum_variant_value (inferredCandidate inferred st.last_value) v
      st.found_values with
  | .error e => .error e
  | .ok value =>
    .ok (value,
      ⟨st.found_values ++ [value],
        (inferredCandidate inferred st.last_value).map (fun _ => value)⟩)

/-- The encode emitter's per-variant narrowing (encoding.rs lines 126-147):
first the *unconditional* `let v: u16 = value.try_into()` whose failure is
`Value too large for u16`, then — only when an `encoding_type` is configured —
`encode_literal::<T>` for that type (`Value too large for specified type`;
the `u128` arm performs no conversion). -/
def encNarrow (opts : Option ByteCodingEnumAttr) (value : Nat) : Except Diag Nat :=
  if 256 ^ 2 ≤ value then .error .valueTooLargeU16
  else
    match encTypeOf opts with
    | none => .ok value
    | some .u128 => .ok value
    | some tp => if 256 ^ tp.bytes ≤ value then .error .valueTooLargeForType else .ok value

/-- The decode emitter's per-variant match literal (decoding.rs lines
138-152): with a configured `encoding_type` the value is narrowed through
`u128_to_int_tok_stream` (whose failure message reads `Value too large for
u16` whatever the target type; the `u128` target cannot fail); with no
configured type the fallback is the silently truncating `(value as u16)`. -/
def decNarrow (opts : Option ByteCodingEnumAttr) (value : Nat) : Except Diag Nat :=
  match encTypeOf opts with
  | none => .ok (value % 256 ^ 2)
  | some .u128 => .ok value
  | some tp => if 256 ^ tp.bytes ≤ value then .error .valueTooLargeU16 else .ok value

/-- The shared left-to-right loop shape of both emitters' `generate_enum_code`
(encoding.rs lines 100-207, decoding.rs lines 81-221), parameterized by the
side-specific narrowing; produces each variant's tag literal or the first
diagnostic. -/
def resolveEnumGo (inferred : Bool) (narrow : Nat → Except Diag Nat) :
    List VariantDecl → ResState → Except Diag (List Nat)
  | [], _ => .ok []
  | v :: vs, st =>
    match tagParseStep inferred st v with
    | .error e => .error e
    | .ok (value, st2) =>
      match narrow value with
      | .error e => .error e
      | .ok lit =>
        match resolveEnumGo inferred narrow vs st2 with
        | .error e => .error e
        | .ok lits => .ok (lit :: lits)

/-- Tag resolution of the encode emitter: the tag value written for each
variant, or the first diagnostic. -/
def resolveEnumEnc (opts : Option ByteCodingEnumAttr) (variants : List VariantDecl) :
    Except Diag (List Nat) :=
  resolveEnumGo (inferredOf opts) (encNarrow opts) variants ⟨[], none⟩

/-- Tag resolution of the decode emitter: the match literal compared against
the decoded tag for each variant, or the first diagnostic. -/
def resolveEnumDec (opts : Option ByteCodingEnumAttr) (variants : List VariantDecl) :
    Except Diag (List Nat) :=
  resolveEnumGo (inferredOf opts) (decNarrow opts) variants ⟨[], none⟩

/-- Byte width of the tag actually written on the wire: the configured type's
width, defaulting to `u16` (2 bytes). -/
def tagWidthBytes (opts : Option ByteCodingEnumAttr) : Nat :=
  match encTypeOf opts with
  | some tp => tp.bytes
  | none => 2

theorem checkDuplicate_ok {value w : Nat} {found : List Nat}
    (h : checkDuplicate value found = .ok w) : w = value ∧ value ∉ found := by
  unfold checkDuplicate at h
  split at h
  · exact absurd h (by simp)
  · rename_i h2
    simp only [Except.ok.injEq] at h
    exact ⟨h.symm, h2⟩

theorem parse_enum_variant_value_ok {dv : Option Nat} {v : VariantDecl}
    {found : List Nat} {value : Nat}
    (h : parse_enum_variant_value dv v found = .ok value) : value ∉ found := by
  unfold parse_enum_variant_value at h
  split at h
  · exact absurd h (by simp)
  · obtain ⟨hw, hmem⟩ := checkDuplicate_ok h
    exact hw ▸ hmem

theorem tagParseStep_ok {inferred : Bool} {st : ResState} {v : VariantDecl}
    {value : Nat} {st2 : ResState}
    (h : tagParseStep inferred st v = .ok (value, st2)) :
    value ∉ st.found_values ∧ st2.found_values = st.found_values ++ [value] := by
  unfold tagParseStep at h
  split at h
  · exact absurd h (by simp)
  · rename_i value0 hp
    simp only [Except.ok.injEq, Prod.mk.injEq] at h
    obtain ⟨hv, hst⟩ := h
    subst hv
    exact ⟨parse_enum_variant_value_ok hp, by rw [← hst]⟩

theorem encNarrow_ok {opts : Option ByteCodingEnumAttr} {value lit : Nat}
    (h : encNarrow opts value = .ok lit) :
    lit = value ∧ value < 256 ^ 2 ∧ value < 256 ^ tagWidthBytes opts ∧
      decNarrow opts value = .ok value := by
  cases htp : encTypeOf opts with
  | none =>
      simp only [encNarrow, htp] at h
      split at h
      · exact absurd h (by simp)
      · rename_i h16
        simp only [Except.ok.injEq] at h
        subst h
        have hv16 : value < 256 ^ 2 := Nat.lt_of_not_le h16
        refine ⟨rfl, hv16, ?_, ?_⟩
        · simp only [tagWidthBytes, htp]
          exact hv16
        · simp only [decNarrow, htp, Nat.mod_eq_of_lt hv16]
  | some tp =>
      cases tp with
      | u128 =>
          simp only [encNarrow, htp] at h
          split at h
          · exact absurd h (by simp)
          · rename_i h16
            simp only [Except.ok.injEq] at h
            subst h
            have hv16 : value < 256 ^ 2 := Nat.lt_of_not_le h16
            refine ⟨rfl, hv16, ?_, ?_⟩
            · simp only [tagWidthBytes, htp, EnumEncodingType.bytes]
              calc value < 256 ^ 2 := hv16
              _ ≤ 256 ^ 16 := Nat.pow_le_pow_right (by norm_num) (by norm_num)
            · simp only [decNarrow, htp]
      | u8 =>
          simp only [encNarrow, htp] at h
          split at h
          · exact absurd h (by simp)
          · rename_i h16
            split at h
            · exact absurd h (by simp)
            · rename_i hb
              simp only [Except.ok.injEq] at h
              subst h
              refine ⟨rfl, Nat.lt_of_not_le h16, ?_, ?_⟩
              · simp only [tagWidthBytes, htp]
                exact Nat.lt_of_not_le hb
              · simp only [decNarrow, htp]
                rw [if_neg hb]
      | u16 =>
          simp only [encNarrow, htp] at h
          split at h
          · exact absurd h (by simp)
          · rename_i h16
            split at h
            · exact absurd h (by simp)
            · rename_i hb
              simp only [Except.ok.injEq] at h
              subst h
              refine ⟨rfl, Nat.lt_of_not_le h16, ?_, ?_⟩
              · simp only [tagWidthBytes, htp]
                exact Nat.lt_of_not_le hb
              · simp only [decNarrow, htp]
                rw [if_neg hb]
      | u32 =>
          simp only [encNarrow, htp] at h
          split at h
          · exact absurd h (by simp)
          · rename_i h16
            split at h
            · exact absurd h (by simp)
            · rename_i hb
              simp only [Except.ok.injEq] at h
              subst h
              refine ⟨rfl, Nat.lt_of_not_le h16, ?_, ?_⟩
              · simp only [tagWidthBytes, htp]
                exact Nat.lt_of_not_le hb
              · simp only [decNarrow, htp]
                rw [if_neg hb]
      | u64 =>
          simp only [encNarrow, htp] at h
          split at h
          · exact absurd h (by simp)
          · rename_i h16
            split at h
            · exact absurd h (by simp)
            · rename_i hb
              simp only [Except.ok.injEq] at h
              subst h
              refine ⟨rfl, Nat.lt_of_not_le h16, ?_, ?_⟩
              · simp only [tagWidthBytes, htp]
                exact Nat.lt_of_not_le hb
              · simp only [decNarrow, htp]
                rw [if_neg hb]

theorem resolveEnumGo_enc_spec (opts : Option ByteCodingEnumAttr) :
    ∀ (vs : List VariantDecl) (st : ResState) (tags : List Nat),
      resolveEnumGo (inferredOf opts) (encNarrow opts) vs st = .ok tags →
      tags.length = vs.length ∧ tags.Nodup ∧
        (∀ t ∈ tags, t ∉ st.found_values) ∧
        (∀ t ∈ tags, t < 256 ^ tagWidthBytes opts) ∧
        resolveEnumGo (inferredOf opts) (decNarrow opts) vs st = .ok tags
  | [], st, tags, h => by
      simp only [resolveEnumGo, Except.ok.injEq] at h
      subst h
      simp [resolveEnumGo]
  | v :: vs, st, tags, h => by
      simp only [resolveEnumGo] at h
      split at h
      · exact absurd h (by simp)
      · rename_i value st2 hstep
        split at h
        · exact absurd h (by simp)
        · rename_i lit hnar
          split at h
          · exact absurd h (by simp)
          · rename_i lits hrec
            simp only [Except.ok.injEq] at h
            subst h
            obtain ⟨hl, h16, hw, hdec⟩ := encNarrow_ok hnar
            subst hl
            obtain ⟨hfresh, hfound⟩ := tagParseStep_ok hstep
            obtain ⟨IH1, IH2, IH3, IH4, IH5⟩ := resolveEnumGo_enc_spec opts vs st2 lits hrec
            refine ⟨by simp [IH1], ?_, ?_, ?_, ?_⟩
            · rw [List.nodup_cons]
              refine ⟨?_, IH2⟩
              intro hmem
              have hni := IH3 lit hmem
              rw [hfound] at hni
              simp at hni
            · intro t ht
              rcases List.mem_cons.mp ht with rfl | ht'
              · exact hfresh
              · have hni := IH3 t ht'
                rw [hfound] at hni
                simp only [List.mem_append, List.mem_singleton, not_or] at hni
                exact hni.1
            · intro t ht
              rcases List.mem_cons.mp ht with rfl | ht'
              · exact hw
              · exact IH4 t ht'
            · simp only [resolveEnumGo, hstep, hdec, IH5]

/-- A successful encode-side tag resolution assigns one tag per variant, all
pairwise distinct, each fitting the wire width; and the decode-side
resolution then succeeds with the same tag literals. -/
theorem resolveEnumEnc_ok_spec {opts : Option ByteCodingEnumAttr}
    {variants : List VariantDecl} {tags : List Nat}
    (h : resolveEnumEnc opts variants = .ok tags) :
    tags.length = variants.length ∧ tags.Nodup ∧
      (∀ t ∈ tags, t < 256 ^ tagWidthBytes opts) ∧
      resolveEnumDec opts variants = .ok tags := by
  obtain ⟨h1, h2, _, h4, h5⟩ := resolveEnumGo_enc_spec opts variants ⟨[], none⟩ tags h
  exact ⟨h1, h2, h4, h5⟩

/-! ## The generated record and union codecs

`schemaEncodeToBuf`/`schemaDecodeFromBuf` are the semantics of the procedure
bodies emitted by `encoding()` and `decoding()` for a hook-free type: the
derive macros wrap these bodies in `impl Encodable`/`impl Decodable`
(byte_coding_derive/src/lib.rs lines 271-287 and 537-553), and with no
`byte_coding` pre/post function configured the wrappers add nothing else. -/

/-- A declared type handed to the derive macros: a record with named fields,
a tuple-like record, or a tagged union. -/
inductive Schema : Type
  | namedRec (fields : List (ByteCodingStructFieldAttr × FTy))
  | tupleRec (fields : List (ByteCodingStructFieldAttr × FTy))
  | unionTy (opts : Option ByteCodingEnumAttr) (variants : List VariantDecl)
deriving DecidableEq

/-- An in-memory value of a declared type: record field values in declaration
order, or a union variant index with its payload values in declaration
order. -/
inductive SValue : Type
  | recV (vs : List FVal)
  | unionV (k : Nat) (vs : List FVal)
deriving DecidableEq

/-- Well-typedness of a value list against declared field types. -/
def fieldsWellTyped (tys : List FTy) (vs : List FVal) : Prop :=
  List.Forall₂ (fun t v => FVal.tyOf v = t ∧ v.wf) tys vs

/-- Well-typedness of a value against a declared type. -/
def wellTyped : Schema → SValue → Prop
  | .namedRec fields, .recV vs => fieldsWellTyped (fields.map Prod.snd) vs
  | .tupleRec fields, .recV vs => fieldsWellTyped (fields.map Prod.snd) vs
  | .unionTy _ variants, .unionV k vs =>
      ∃ h : k < variants.length, fieldsWellTyped (variants.get ⟨k, h⟩).fields vs
  | _, _ => False

/-- The generated record `encode_to_buf` body
(`generate_named_struct_fields_code` / `generate_unnamed_struct_fields_code`,
encoding.rs lines 210-268): skip `ignore` fields while collecting, stable-sort
the collected (attribute, field) pairs with `orderno_cmp`, then append each
field value's encoding in that order. -/
def recordEncodeToBuf (fields : List (ByteCodingStructFieldAttr × FTy)) (vs : List FVal)
    (buf : List Nat) : List Nat :=
  (sortOrd (fun a b => orderno_cmp a.2.1.1 b.2.1.1)
      (((fields.zip vs).enum).filter (fun e => ! e.2.1.1.ignore))).foldl
    (fun b e => encodeValToBuf e.2.2 b) buf

/-- One decode statement per resolved field (decoding.rs lines 223-322): an
`ignore` field binds `Default::default()` and consumes no bytes; any other
field runs its type's decoder, a `None` aborting the whole decode.  Returns
the (declaration index, value) bindings in resolved order. -/
def recordDecodeFields :
    List (Nat × ByteCodingStructFieldAttr × FTy) → List Nat →
    Option (List (Nat × FVal) × List Nat)
  | [], buffer => some ([], buffer)
  | e :: es, buffer =>
    if e.2.1.ignore then
      (recordDecodeFields es buffer).map (fun r => ((e.1, FTy.defVal e.2.2) :: r.1, r.2))
    else
      match decodeVal e.2.2 buffer with
      | none => none
      | some (v, buf2) =>
        (recordDecodeFields es buf2).map (fun r => ((e.1, v) :: r.1, r.2))

/-- The generated `decode_from_buf` body for a named record: every field
(ignored ones included) is stable-sorted by `orderno_cmp`, decoded in that
order, and the struct literal `Self { .. }` rebuilds the value by field name,
i.e. each declared position receives the binding with its own index. -/
def recordDecodeNamed (fields : List (ByteCodingStructFieldAttr × FTy))
    (buffer : List Nat) : Option (SValue × List Nat) :=
  match recordDecodeFields
      (sortOrd (fun a b => orderno_cmp a.2.1 b.2.1) fields.enum) buffer with
  | none => none
  | some (binds, rest) =>
    some (.recV ((List.range fields.length).map
      (fun i => (binds.lookup i).getD (FVal.u8V 0))), rest)

/-- The generated `decode_from_buf` body for a tuple record: as for a named
record, but the positional literal `Self(..)` lists the bindings in *sorted*
order, so position `p` receives the `p`-th binding of the resolved order, not
the binding declared at position `p`. -/
def recordDecodeTuple (fields : List (ByteCodingStructFieldAttr × FTy))
    (buffer : List Nat) : Option (SValue × List Nat) :=
  match recordDecodeFields
      (sortOrd (fun a b => orderno_cmp a.2.1 b.2.1) fields.enum) buffer with
  | none => none
  | some (binds, rest) => some (.recV (binds.map Prod.snd), rest)

/-- The generated union `encode_to_buf` body (encoding.rs lines 100-207):
write the matched variant's tag at the configured width, then its payload
fields in declaration order.  The generated match arms exist only when the
encode-side resolution succeeded. -/
def unionEncodeToBuf (opts : Option ByteCodingEnumAttr) (variants : List VariantDecl)
    (k : Nat) (vs : List FVal) (buf : List Nat) : List Nat :=
  match resolveEnumEnc opts variants with
  | .error _ => buf
  | .ok tags =>
    vs.foldl (fun b v => encodeValToBuf v b)
      (buf ++ natToLEBytes (tagWidthBytes opts) (tags.getD k 0))

/-- Decode a variant's payload fields in declaration order (decoding.rs lines
157-182). -/
def unionDecodeFields : List FTy → List Nat → Option (List FVal × List Nat)
  | [], buffer => some ([], buffer)
  | t :: ts, buffer =>
    match decodeVal t buffer with
    | none => none
    | some (v, buf2) => (unionDecodeFields ts buf2).map (fun r => (v :: r.1, r.2))

/-- The generated union `decode_from_buf` body (decoding.rs lines 81-221):
read one tag of the configured width, dispatch on the first variant whose
literal equals it (the `_ => return None` arm otherwise), then decode that
variant's payload in declaration order. -/
def unionDecodeFromBuf (opts : Option ByteCodingEnumAttr) (variants : List VariantDecl)
    (buffer : List Nat) : Option (SValue × List Nat) :=
  match resolveEnumDec opts variants with
  | .error _ => none
  | .ok lits =>
    match decodeNatLE (tagWidthBytes opts) buffer with
    | none => none
    | some (variant_value, buf2) =>
      match lits.findIdx? (fun l => l == variant_value) with
      | none => none
      | some k =>
        match unionDecodeFields ((variants.getD k ⟨⟨none⟩, none, []⟩).fields) buf2 with
        | none => none
        | some (vs, rest) => some (.unionV k vs, rest)

/-- The generated `encode_to_buf` procedure of a hook-free derived type. -/
def schemaEncodeToBuf : Schema → SValue → List Nat → List Nat
  | .namedRec fields, .recV vs, buf => recordEncodeToBuf fields vs buf
  | .tupleRec fields, .recV vs, buf => recordEncodeToBuf fields vs buf
  | .unionTy opts variants, .unionV k vs, buf => unionEncodeToBuf opts variants k vs buf
  | _, _, buf => buf

/-- The generated `decode_from_buf` procedure of a hook-free derived type. -/
def schemaDecodeFromBuf : Schema → List Nat → Option (SValue × List Nat)
  | .namedRec fields, buffer => recordDecodeNamed fields buffer
  | .tupleRec fields, buffer => recordDecodeTuple fields buffer
  | .unionTy opts variants, buffer => unionDecodeFromBuf opts variants buffer

/-! ## Round-trip machinery -/

theorem foldl_encodeValToBuf_append {α : Type} (proj : α → FVal) (l : List α)
    (buf : List Nat) :
    l.foldl (fun b e => encodeValToBuf (proj e) b) buf =
      buf ++ l.foldl (fun b e => encodeValToBuf (proj e) b) [] := by
  induction l generalizing buf with
  | nil => simp
  | cons x xs ih =>
      simp only [List.foldl_cons]
      rw [ih (encodeValToBuf (proj x) buf), ih (encodeValToBuf (proj x) []),
        encodeValToBuf_append (proj x) buf]
      simp

theorem fst_le_of_mem_enumFrom {α : Type} :
    ∀ (l : List α) (n : Nat) (e : Nat × α), e ∈ List.enumFrom n l → n ≤ e.1
  | [], _, _, h => by simp [List.enumFrom] at h
  | x :: xs, n, e, h => by
      simp only [List.enumFrom, List.mem_cons] at h
      rcases h with rfl | h
      · exact le_rfl
      · exact Nat.le_of_succ_le (fst_le_of_mem_enumFrom xs (n + 1) e h)

theorem pairwise_lt_enumFrom {α : Type} :
    ∀ (n : Nat) (l : List α), (List.enumFrom n l).Pairwise (fun a b => a.1 < b.1)
  | _, [] => List.Pairwise.nil
  | n, x :: xs => by
      simp only [List.enumFrom]
      rw [List.pairwise_cons]
      exact ⟨fun e he => Nat.lt_of_succ_le (fst_le_of_mem_enumFrom xs (n + 1) e he),
        pairwise_lt_enumFrom (n + 1) xs⟩

theorem snd_mem_of_mem_enumFrom {α : Type} :
    ∀ (l : List α) (n : Nat) (e : Nat × α), e ∈ List.enumFrom n l → e.2 ∈ l
  | [], _, _, h => by simp [List.enumFrom] at h
  | x :: xs, n, e, h => by
      simp only [List.enumFrom, List.mem_cons] at h
      rcases h with rfl | h
      · exact List.mem_cons_self x xs
      · exact List.mem_cons_of_mem x (snd_mem_of_mem_enumFrom xs (n + 1) e h)

theorem map_enumFrom_zip_fst {A B : Type} :
    ∀ (l1 : List A) (l2 : List B) (n : Nat), l1.length = l2.length →
      (List.enumFrom n (l1.zip l2)).map (fun e => (e.1, e.2.1)) = List.enumFrom n l1
  | [], [], _, _ => rfl
  | [], _ :: _, _, h => by simp at h
  | _ :: _, [], _, h => by simp at h
  | a :: as, b :: bs, n, h => by
      have hrec := map_enumFrom_zip_fst as bs (n + 1) (by simpa using h)
      simp only [List.zip] at hrec
      simp only [List.zip_cons_cons, List.enumFrom, List.map_cons, List.zip, hrec]

theorem lookup_perm {β : Type} {l l' : List (Nat × β)} (h : List.Perm l l')
    (hnd : (l.map Prod.fst).Nodup) (k : Nat) : l.lookup k = l'.lookup k := by
  induction h with
  | nil => rfl
  | cons x h ih =>
      obtain ⟨xk, xv⟩ := x
      simp only [List.map_cons, List.nodup_cons] at hnd
      simp only [List.lookup]
      cases hk : (k == xk)
      · exact ih hnd.2
      · rfl
  | swap x y l =>
      obtain ⟨yk, yv⟩ := y
      obtain ⟨xk, xv⟩ := x
      simp only [List.map_cons, List.nodup_cons, List.mem_cons] at hnd
      have hxy : yk ≠ xk := fun he => hnd.1 (Or.inl he)
      simp only [List.lookup]
      cases h1 : (k == yk) <;> cases h2 : (k == xk)
      · rfl
      · rfl
      · rfl
      · exact absurd ((eq_of_beq h1).symm.trans (eq_of_beq h2)) hxy
  | trans h1 h2 ih1 ih2 =>
      rw [ih1 hnd, ih2 (((h1.map Prod.fst).nodup_iff).mp hnd)]

theorem lookup_map_enumFrom {X : Type} (f : Nat × X → FVal) :
    ∀ (l : List X) (s i : Nat),
      ((List.enumFrom s l).map (fun e => (e.1, f e))).lookup (s + i) =
        (l[i]?).map (fun x => f (s + i, x))
  | [], s, i => by simp
  | x :: xs, s, 0 => by
      simp [List.enumFrom, List.lookup]
  | x :: xs, s, i + 1 => by
      simp only [List.enumFrom, List.map_cons, List.lookup, List.getElem?_cons_succ]
      have hne : (s + (i + 1) == s) = false := by
        simp only [beq_eq_false_iff_ne, ne_eq]
        omega
      rw [hne]
      have hrec := lookup_map_enumFrom f xs (s + 1) i
      rw [show s + (i + 1) = s + 1 + i by omega]
      exact hrec

theorem findIdx_beq_of_nodup :
    ∀ (l : List Nat) (k : Nat) (hk : k < l.length), l.Nodup →
      l.findIdx? (fun x => x == l[k]) = some k
  | x :: xs, 0, hk, hnd => by
      simp [List.findIdx?]
  | x :: xs, k + 1, hk, hnd => by
      have hklen : k < xs.length := by simpa using hk
      have hmem : xs[k] ∈ xs := List.getElem_mem hklen
      rw [List.nodup_cons] at hnd
      have hne : (x == (x :: xs)[k + 1]) = false := by
        simp only [List.getElem_cons_succ, beq_eq_false_iff_ne, ne_eq]
        intro he
        exact hnd.1 (he ▸ hmem)
      rw [List.findIdx?_cons, hne]
      simp only [List.getElem_cons_succ, cond_false]
      have hrec := findIdx_beq_of_nodup xs k hklen hnd.2
      simp [hrec]

theorem foldl_encMixed_append (l : List (Nat × (ByteCodingStructFieldAttr × FTy) × FVal))
    (buf : List Nat) :
    l.foldl (fun b e => encodeValToBuf e.2.2 b) buf =
      buf ++ l.foldl (fun b e => encodeValToBuf e.2.2 b) [] := by
  induction l generalizing buf with
  | nil => simp
  | cons x xs ih =>
      simp only [List.foldl_cons]
      rw [ih (encodeValToBuf x.2.2 buf), ih (encodeValToBuf x.2.2 []),
        encodeValToBuf_append x.2.2 buf]
      simp

theorem foldl_encFVal_append (l : List FVal) (buf : List Nat) :
    l.foldl (fun b v => encodeValToBuf v b) buf =
      buf ++ l.foldl (fun b v => encodeValToBuf v b) [] := by
  induction l generalizing buf with
  | nil => simp
  | cons x xs ih =>
      simp only [List.foldl_cons]
      rw [ih (encodeValToBuf x buf), ih (encodeValToBuf x []),
        encodeValToBuf_append x buf]
      simp

/-- Walking the resolved field list: the decode statements read back exactly
the bytes the encode statements appended, bind each declaration index to its
original value — the default for an `ignore` field — and leave trailing bytes
untouched. -/
theorem recordDecodeFields_spec :
    ∀ (S : List (Nat × (ByteCodingStructFieldAttr × FTy) × FVal)) (rest : List Nat),
      (∀ e ∈ S, FVal.tyOf e.2.2 = e.2.1.2 ∧ (e.2.2).wf) →
      recordDecodeFields (S.map (fun e => (e.1, e.2.1)))
        ((S.filter (fun e => ! e.2.1.1.ignore)).foldl
          (fun b e => encodeValToBuf e.2.2 b) [] ++ rest) =
      some
        (S.map (fun e => (e.1, if e.2.1.1.ignore then FTy.defVal e.2.1.2 else e.2.2)),
          rest)
  | [], rest, _ => by simp [recordDecodeFields]
  | e :: es, rest, h => by
      have hrec := recordDecodeFields_spec es rest
        (fun x hx => h x (List.mem_cons_of_mem _ hx))
      by_cases hig : e.2.1.1.ignore
      · have hfe : (e :: es).filter (fun x => ! x.2.1.1.ignore) =
            es.filter (fun x => ! x.2.1.1.ignore) := by
          simp [List.filter_cons, hig]
        rw [hfe]
        simp only [List.map_cons, recordDecodeFields]
        simp [hig, hrec]
      · have hfe : (e :: es).filter (fun x => ! x.2.1.1.ignore) =
            e :: es.filter (fun x => ! x.2.1.1.ignore) := by
          simp [List.filter_cons, hig]
        rw [hfe, List.foldl_cons,
          foldl_encMixed_append _ (encodeValToBuf e.2.2 []), List.append_assoc]
        obtain ⟨hty, hwf⟩ := h e (List.mem_cons_self e es)
        simp only [List.map_cons, recordDecodeFields]
        rw [← hty, decodeVal_encodeVal e.2.2 _ hwf]
        simp [hig, hrec, hty]

/-- Decoding a variant's payload fields reads back exactly the bytes the
encode side appended for them. -/
theorem unionDecodeFields_spec (ts : List FTy) (vs : List FVal)
    (h : fieldsWellTyped ts vs) :
    ∀ rest : List Nat,
      unionDecodeFields ts (vs.foldl (fun b v => encodeValToBuf v b) [] ++ rest) =
        some (vs, rest) := by
  induction h with
  | nil => intro rest; simp [unionDecodeFields]
  | cons hrel hrest ih =>
      intro rest
      obtain ⟨hty, hwf⟩ := hrel
      simp only [List.foldl_cons]
      rw [foldl_encFVal_append _ (encodeValToBuf _ []), List.append_assoc]
      simp only [unionDecodeFields]
      rw [← hty, decodeVal_encodeVal _ _ hwf]
      simp [ih rest]

/-- Generated-code round-trip for a union value: when the encode side
resolved, decoding the encoded bytes restores the same variant and payload
and consumes exactly the encoded bytes. -/
theorem unionDecode_unionEncode {opts : Option ByteCodingEnumAttr}
    {variants : List VariantDecl} {k : Nat} {vs : List FVal} {tags : List Nat}
    (rest : List Nat) (hres : resolveEnumEnc opts variants = .ok tags)
    (hk : k < variants.length)
    (hwt : fieldsWellTyped (variants[k].fields) vs) :
    unionDecodeFromBuf opts variants (unionEncodeToBuf opts variants k vs [] ++ rest) =
      some (.unionV k vs, rest) := by
  obtain ⟨hlen, hnd, hbound, hdec⟩ := resolveEnumEnc_ok_spec hres
  have hklen : k < tags.length := by omega
  have hgetd : tags.getD k 0 = tags[k] := List.getD_eq_getElem tags 0 hklen
  simp only [unionEncodeToBuf, hres]
  rw [foldl_encFVal_append vs ([] ++ natToLEBytes (tagWidthBytes opts) (tags.getD k 0)),
    List.nil_append, hgetd, List.append_assoc]
  have hdecode := decodeNatLE_append (tagWidthBytes opts) (tags[k])
    ((vs.foldl (fun b v => encodeValToBuf v b) []) ++ rest)
    (hbound _ (List.getElem_mem hklen))
  have hfind := findIdx_beq_of_nodup tags k hklen hnd
  have hvard : variants.getD k ⟨⟨none⟩, none, []⟩ = variants[k] :=
    List.getD_eq_getElem variants _ hk
  have hfields := unionDecodeFields_spec (variants[k].fields) vs hwt rest
  simp only [unionDecodeFromBuf, hdec, hdecode, hfind, hvard, hfields]

/-- Generated-code round-trip for a named record: decoding the encoded bytes
rebuilds the record with every non-ignored field's original value, every
ignored field holding its type's default, and consumes exactly the encoded
bytes. -/
theorem recordDecodeNamed_encode (fields : List (ByteCodingStructFieldAttr × FTy))
    (vs : List FVal) (rest : List Nat)
    (hwt : fieldsWellTyped (fields.map Prod.snd) vs) :
    recordDecodeNamed fields (recordEncodeToBuf fields vs [] ++ rest) =
      some (.recV ((fields.zip vs).map
        (fun fv => if fv.1.1.ignore then FTy.defVal fv.1.2 else fv.2)), rest) := by
  have hlen : fields.length = vs.length := by
    have hle := hwt.length_eq
    simpa using hle
  have hziplen : (fields.zip vs).length = fields.length := by
    rw [List.length_zip]
    omega
  have hzipP : ∀ fv ∈ fields.zip vs, FVal.tyOf fv.2 = fv.1.2 ∧ (fv.2 : FVal).wf := by
    intro fv hfv
    have hmem : (fv.1.2, fv.2) ∈ (fields.map Prod.snd).zip vs := by
      rw [List.zip_map_left]
      exact List.mem_map_of_mem (fun p => (p.1.2, p.2)) hfv
    exact (List.forall₂_iff_zip.mp hwt).2 hmem
  have hF1 : ∀ e ∈ sortOrd (fun a b => orderno_cmp a.2.1.1 b.2.1.1)
      ((fields.zip vs).enum),
      FVal.tyOf e.2.2 = e.2.1.2 ∧ (e.2.2 : FVal).wf := by
    intro e he
    have heL : e ∈ (fields.zip vs).enum :=
      (sortOrd_perm (fun a b => orderno_cmp a.2.1.1 b.2.1.1) _).mem_iff.mp he
    exact hzipP e.2 (snd_mem_of_mem_enumFrom _ 0 e heL)
  have hencode : recordEncodeToBuf fields vs [] =
      ((sortOrd (fun a b => orderno_cmp a.2.1.1 b.2.1.1)
          ((fields.zip vs).enum)).filter (fun e => ! e.2.1.1.ignore)).foldl
        (fun b e => encodeValToBuf e.2.2 b) [] := by
    rw [recordEncodeToBuf,
      ← filter_sortOrd (fun e => e.2.1.1) (fun e => ! e.2.1.1.ignore)
        ((fields.zip vs).enum)]
  have hdeclist : sortOrd (fun a b => orderno_cmp a.2.1 b.2.1) fields.enum =
      (sortOrd (fun a b => orderno_cmp a.2.1.1 b.2.1.1)
        ((fields.zip vs).enum)).map (fun e => (e.1, e.2.1)) := by
    have hm := map_sortOrd (fun e => e.2.1.1) (fun e => (e.1, e.2.1))
      (fun e => e.2.1) (fun a => rfl) ((fields.zip vs).enum)
    have hz : ((fields.zip vs).enum).map (fun e => (e.1, e.2.1)) = fields.enum :=
      map_enumFrom_zip_fst fields vs 0 hlen
    rw [hm, hz]
  have hwalk := recordDecodeFields_spec
    (sortOrd (fun a b => orderno_cmp a.2.1.1 b.2.1.1) ((fields.zip vs).enum)) rest hF1
  have hperm : List.Perm
      (sortOrd (fun a b => orderno_cmp a.2.1.1 b.2.1.1) ((fields.zip vs).enum))
      ((fields.zip vs).enum) :=
    sortOrd_perm _ _
  have hkeys : (((sortOrd (fun a b => orderno_cmp a.2.1.1 b.2.1.1)
      ((fields.zip vs).enum)).map
        (fun e => (e.1, if e.2.1.1.ignore then FTy.defVal e.2.1.2 else e.2.2))).map
      Prod.fst).Nodup := by
    rw [List.map_map]
    have hf : (Prod.fst ∘ fun e : Nat × (ByteCodingStructFieldAttr × FTy) × FVal =>
        (e.1, if e.2.1.1.ignore then FTy.defVal e.2.1.2 else e.2.2)) =
        (Prod.fst : Nat × (ByteCodingStructFieldAttr × FTy) × FVal → Nat) := by
      funext e
      rfl
    rw [hf]
    have hpf := hperm.map
      (Prod.fst : Nat × (ByteCodingStructFieldAttr × FTy) × FVal → Nat)
    rw [List.Perm.nodup_iff hpf, List.enum_map_fst]
    exact List.nodup_range _
  have hlookup : ∀ i : Nat,
      (((sortOrd (fun a b => orderno_cmp a.2.1.1 b.2.1.1)
          ((fields.zip vs).enum)).map
          (fun e => (e.1, if e.2.1.1.ignore then FTy.defVal e.2.1.2 else e.2.2))).lookup
        i) =
      ((fields.zip vs)[i]?).map
        (fun x => if x.1.1.ignore then FTy.defVal x.1.2 else x.2) := by
    intro i
    rw [lookup_perm (hperm.map _) hkeys i]
    have hl := lookup_map_enumFrom
      (fun e => if e.2.1.1.ignore then FTy.defVal e.2.1.2 else e.2.2)
      (fields.zip vs) 0 i
    rw [Nat.zero_add] at hl
    exact hl
  have hfinal : (List.range fields.length).map
      (fun i => (((sortOrd (fun a b => orderno_cmp a.2.1.1 b.2.1.1)
          ((fields.zip vs).enum)).map
          (fun e => (e.1, if e.2.1.1.ignore then FTy.defVal e.2.1.2 else e.2.2))).lookup
        i).getD (FVal.u8V 0)) =
      (fields.zip vs).map
        (fun fv => if fv.1.1.ignore then FTy.defVal fv.1.2 else fv.2) := by
    apply List.ext_getElem
    · simp [hziplen]
    · intro i h1 h2
      have hi : i < fields.length := by simpa using h1
      have hiz : i < (fields.zip vs).length := by omega
      rw [List.getElem_map, List.getElem_range, List.getElem_map, hlookup i,
        List.getElem?_eq_getElem hiz]
      rfl
  simp only [recordDecodeNamed, hdeclist, hencode, hwalk, hfinal]

theorem map_enumFrom_snd {X Y : Type} (F : X → Y) :
    ∀ (l : List X) (n : Nat), (List.enumFrom n l).map (fun e => F e.2) = l.map F
  | [], _ => rfl
  | x :: xs, n => by
      simp only [List.enumFrom, List.map_cons]
      rw [map_enumFrom_snd F xs (n + 1)]

/-- Generated-code round-trip for a tuple record whose fields carry no
explicit order numbers (the stable sort then moves nothing): decoding
rebuilds the original positional values, ignored fields defaulted. -/
theorem recordDecodeTuple_encode (fields : List (ByteCodingStructFieldAttr × FTy))
    (vs : List FVal) (rest : List Nat)
    (hwt : fieldsWellTyped (fields.map Prod.snd) vs)
    (hnoord : ∀ f ∈ fields, (f.1 : ByteCodingStructFieldAttr).order_no = none) :
    recordDecodeTuple fields (recordEncodeToBuf fields vs [] ++ rest) =
      some (.recV ((fields.zip vs).map
        (fun fv => if fv.1.1.ignore then FTy.defVal fv.1.2 else fv.2)), rest) := by
  have hlen : fields.length = vs.length := by
    have hle := hwt.length_eq
    simpa using hle
  have hzipP : ∀ fv ∈ fields.zip vs, FVal.tyOf fv.2 = fv.1.2 ∧ (fv.2 : FVal).wf := by
    intro fv hfv
    have hmem : (fv.1.2, fv.2) ∈ (fields.map Prod.snd).zip vs := by
      rw [List.zip_map_left]
      exact List.mem_map_of_mem (fun p => (p.1.2, p.2)) hfv
    exact (List.forall₂_iff_zip.mp hwt).2 hmem
  have hattr : ∀ e ∈ (fields.zip vs).enum,
      (e.2.1.1 : ByteCodingStructFieldAttr).order_no = none := by
    intro e he
    have hz := snd_mem_of_mem_enumFrom _ 0 e he
    exact hnoord e.2.1 (List.of_mem_zip hz).1
  have heqcmp : ∀ a ∈ (fields.zip vs).enum, ∀ b ∈ (fields.zip vs).enum,
      orderno_cmp a.2.1.1 b.2.1.1 ≠ .lt := by
    intro a ha b hb
    rw [orderno_cmp]
    simp [hattr a ha, hattr b hb]
  have hsortL : sortOrd (fun a b => orderno_cmp a.2.1.1 b.2.1.1)
      ((fields.zip vs).enum) = (fields.zip vs).enum :=
    sortOrd_eq_self _ _ heqcmp
  have hsortF : sortOrd (fun a b => orderno_cmp a.2.1.1 b.2.1.1)
      (((fields.zip vs).enum).filter (fun e => ! e.2.1.1.ignore)) =
      ((fields.zip vs).enum).filter (fun e => ! e.2.1.1.ignore) :=
    sortOrd_eq_self _ _ (fun a ha b hb =>
      heqcmp a (List.mem_of_mem_filter ha) b (List.mem_of_mem_filter hb))
  have hz : ((fields.zip vs).enum).map (fun e => (e.1, e.2.1)) = fields.enum :=
    map_enumFrom_zip_fst fields vs 0 hlen
  have hsortD : sortOrd (fun a b => orderno_cmp a.2.1 b.2.1) fields.enum =
      fields.enum := by
    apply sortOrd_eq_self
    intro a ha b hb
    rw [← hz] at ha hb
    obtain ⟨a0, ha0, rfl⟩ := List.mem_map.mp ha
    obtain ⟨b0, hb0, rfl⟩ := List.mem_map.mp hb
    exact heqcmp a0 ha0 b0 hb0
  have hF1 : ∀ e ∈ (fields.zip vs).enum,
      FVal.tyOf e.2.2 = e.2.1.2 ∧ (e.2.2 : FVal).wf :=
    fun e he => hzipP e.2 (snd_mem_of_mem_enumFrom _ 0 e he)
  have hwalk := recordDecodeFields_spec ((fields.zip vs).enum) rest hF1
  have hsnd : (((fields.zip vs).enum).map
      (fun e => (e.1, if e.2.1.1.ignore then FTy.defVal e.2.1.2 else e.2.2))).map
      Prod.snd =
      (fields.zip vs).map
        (fun fv => if fv.1.1.ignore then FTy.defVal fv.1.2 else fv.2) := by
    rw [List.map_map]
    exact map_enumFrom_snd
      (fun fv => if fv.1.1.ignore then FTy.defVal fv.1.2 else fv.2)
      (fields.zip vs) 0
  rw [hz] at hwalk
  simp only [recordDecodeTuple, recordEncodeToBuf, hsortD, hsortF, hwalk, hsnd]

/-- Replacing every ignored field's value by its default leaves the
encode-side (filtered) field/value pair list unchanged: ignored entries are
dropped before any byte is produced, and kept entries are untouched. -/
theorem filter_enumFrom_zip_defaulted :
    ∀ (fields : List (ByteCodingStructFieldAttr × FTy)) (vs : List FVal) (n : Nat),
      fields.length = vs.length →
      ((fields.zip ((fields.zip vs).map
          (fun fv => if fv.1.1.ignore then FTy.defVal fv.1.2 else fv.2))).enumFrom
        n).filter (fun e => ! e.2.1.1.ignore) =
      ((fields.zip vs).enumFrom n).filter (fun e => ! e.2.1.1.ignore)
  | [], vs, n, h => by simp
  | f :: fs, [], n, h => by simp at h
  | f :: fs, v :: vs, n, h => by
      have hrec := filter_enumFrom_zip_defaulted fs vs (n + 1) (by simpa using h)
      by_cases hig : f.1.ignore
      · simp only [List.zip_cons_cons, List.map_cons, List.enumFrom, List.filter_cons,
          hig]
        simpa [hig] using hrec
      · simp only [List.zip_cons_cons, List.map_cons, List.enumFrom, List.filter_cons,
          hig]
        simpa [hig] using hrec

/-! ## The claimed properties -/

/-- C2: the claim states that every decoder returns `None` on malformed
input, never panicking and never reading past the slice.  The code violates
this: `String::decode_from_buf` on the 8 bytes `[4,0,0,0,0,0,0,0]` reads the
length prefix 4, then indexes `buffer[0..4]` into the 0 remaining bytes
without a bounds check and aborts.  This theorem evaluates the embedded
decoder at that failing input. -/
theorem claim_C2_string_decode_aborts :
    string_decode_from_buf [4, 0, 0, 0, 0, 0, 0, 0] = .panicked := by decide

/-- C5: the claim states that resolution succeeds exactly when each tag fits
the configured width.  The code violates it in both directions: (a) with
`encoding_type = "u32"` and explicit tag value 70000 — which fits `u32` — the
encode emitter still fails with `Value too large for u16`, because it narrows
every tag to `u16` before consulting the configured type; (b) with the
default 16-bit width and tag value 70000 — which does not fit — the decode
emitter succeeds, silently truncating the match literal to `70000 as u16 =
4464`. -/
theorem claim_C5_width_narrowing_bug :
    (70000 < 2 ^ 32 ∧
      resolveEnumEnc (some ⟨some .u32, false⟩) [⟨⟨some 70000⟩, none, []⟩] =
        .error .valueTooLargeU16) ∧
    (¬ 70000 < 2 ^ 16 ∧
      resolveEnumDec none [⟨⟨some 70000⟩, none, []⟩] = .ok [4464]) := by
  refine ⟨⟨by norm_num, by rfl⟩, by norm_num, by rfl⟩

/-- C8: encoding the boolean array `[true,false,true,false,true,false,true,
false]` produces exactly the byte `0b10101010` — the first element lands in
the most significant bit — and every 8-element boolean array encodes to
exactly one (valid) byte appended to the buffer. -/
theorem claim_C8_bool_array_packing :
    boolArr8_encode_to_buf [true, false, true, false, true, false, true, false] [] =
      [0b10101010] ∧
    ∀ (a : List Bool) (buf : List Nat), a.length = 8 →
      ∃ byte, byte < 256 ∧ boolArr8_encode_to_buf a buf = buf ++ [byte] := by
  refine ⟨by decide, ?_⟩
  intro a buf _
  exact ⟨boolArr8Byte a, boolArr8Byte_lt a, rfl⟩

theorem claim_C8_bool_array_packing_witness :
    ∃ byte, byte < 256 ∧
      boolArr8_encode_to_buf [true, true, false, false, true, true, false, false] [7] =
        [7] ++ [byte] :=
  claim_C8_bool_array_packing.2
    [true, true, false, false, true, true, false, false] [7] (by decide)

/-- C10: under `bool_arr_optimization`, decoding `[bool; N]` from a buffer
holding at least `⌈N/8⌉` bytes consumes exactly `⌈N/8⌉` bytes and assigns
element `i` bit `i % 8` of byte `i / 8`, least significant bit first. -/
theorem claim_C10_bool_array_decode (N : Nat) (buffer : List Nat)
    (h : boolArrBytes N ≤ buffer.length) :
    boolArrBytes N = (N + 7) / 8 ∧
    ∃ res : List Bool,
      bool_arr_decode_from_buf N buffer = .ok res (buffer.drop ((N + 7) / 8)) ∧
      res.length = N ∧
      ∀ i, i < N → res.getD i false = Nat.testBit (buffer.getD (i / 8) 0) (i % 8) := by
  have hceil : boolArrBytes N = (N + 7) / 8 := by
    unfold boolArrBytes
    split <;> omega
  have h8 : N ≤ 8 * boolArrBytes N := by
    unfold boolArrBytes
    split <;> omega
  refine ⟨hceil, ?_⟩
  have hmin0 : min (8 * 0) N = 0 := by omega
  obtain ⟨g1, g2, g3⟩ := outerByteLoop_spec buffer N (boolArrBytes N) 0
    (List.replicate N false) (by simp)
    (fun p hp => by omega)
    (fun p hp => by
      rw [List.getD_eq_getElem?_getD, List.getElem?_replicate]
      split <;> rfl)
  rw [hmin0] at g1 g2 g3
  have hend : min (8 * (0 + boolArrBytes N)) N = N := by omega
  rw [hend] at g1 g3
  refine ⟨(outerByteLoop buffer N (List.range (boolArrBytes N)) 0
      (List.replicate N false)).2, ?_, ?_, ?_⟩
  · rw [bool_arr_decode_from_buf, if_neg (by omega), hceil]
  · rw [List.range_eq_range']
    exact g2
  · intro i hi
    rw [List.range_eq_range']
    exact g3 i (by omega)

theorem claim_C10_bool_array_decode_witness :
    boolArrBytes 3 = (3 + 7) / 8 ∧
    ∃ res : List Bool,
      bool_arr_decode_from_buf 3 [5] = .ok res ([5].drop ((3 + 7) / 8)) ∧
      res.length = 3 ∧
      ∀ i, i < 3 → res.getD i false = Nat.testBit ([5].getD (i / 8) 0) (i % 8) :=
  claim_C10_bool_array_decode 3 [5] (by decide)

/-- C9: the generated encode procedure only appends — encoding a value into a
pre-existing buffer `b` produces exactly `b` followed by the standalone
encoding of the value, for records (named and tuple) and unions alike. -/
theorem claim_C9_encode_only_appends (s : Schema) (v : SValue) (b : List Nat) :
    schemaEncodeToBuf s v b = b ++ schemaEncodeToBuf s v [] := by
  cases s with
  | namedRec fields =>
      cases v with
      | recV vs =>
          simp only [schemaEncodeToBuf, recordEncodeToBuf]
          rw [foldl_encMixed_append _ b]
      | unionV k vs => simp [schemaEncodeToBuf]
  | tupleRec fields =>
      cases v with
      | recV vs =>
          simp only [schemaEncodeToBuf, recordEncodeToBuf]
          rw [foldl_encMixed_append _ b]
      | unionV k vs => simp [schemaEncodeToBuf]
  | unionTy opts variants =>
      cases v with
      | recV vs => simp [schemaEncodeToBuf]
      | unionV k vs =>
          simp only [schemaEncodeToBuf, unionEncodeToBuf]
          cases hres : resolveEnumEnc opts variants with
          | error e => simp
          | ok tags =>
              show List.foldl (fun b v => encodeValToBuf v b)
                  (b ++ natToLEBytes (tagWidthBytes opts) (tags.getD k 0)) vs =
                b ++ List.foldl (fun b v => encodeValToBuf v b)
                  ([] ++ natToLEBytes (tagWidthBytes opts) (tags.getD k 0)) vs
              rw [foldl_encFVal_append vs
                  (b ++ natToLEBytes (tagWidthBytes opts) (tags.getD k 0)),
                foldl_encFVal_append vs
                  ([] ++ natToLEBytes (tagWidthBytes opts) (tags.getD k 0))]
              simp

/-- C6: the resolved serialization order sorts fields with explicit order
numbers first, ascending, unordered fields after them in declaration order.
Concretely, fields `[f0(order=None), f1(order=2), f2(order=0), f3(order=None)]`
resolve to the order `f2, f1, f0, f3`; in general the resolved order is a
permutation of the declared fields in which every earlier field either has a
strictly smaller `orderno_cmp` key or ties and was declared earlier. -/
theorem claim_C6_field_order :
    (sortOrd (fun a b => orderno_cmp a.2.1 b.2.1)
        (([(⟨none, false⟩, FTy.u8T), (⟨some 2, false⟩, FTy.u8T),
            (⟨some 0, false⟩, FTy.u8T), (⟨none, false⟩, FTy.u8T)] :
            List (ByteCodingStructFieldAttr × FTy)).enum)).map Prod.fst =
      [2, 1, 0, 3] ∧
    ∀ fields : List (ByteCodingStructFieldAttr × FTy),
      List.Perm (sortOrd (fun a b => orderno_cmp a.2.1 b.2.1) fields.enum)
        fields.enum ∧
      (sortOrd (fun a b => orderno_cmp a.2.1 b.2.1) fields.enum).Pairwise
        (fun a b => orderno_cmp a.2.1 b.2.1 = .lt ∨
          (orderno_cmp a.2.1 b.2.1 = .eq ∧ a.1 < b.1)) := by
  refine ⟨by decide, ?_⟩
  intro fields
  refine ⟨sortOrd_perm _ _, ?_⟩
  exact pairwise_sortOrd (fun e => e.2.1) Prod.fst fields.enum
    (pairwise_lt_enumFrom 0 fields)

/-- C3: for every union configuration, a successful tag resolution assigns
exactly one tag per variant with all tags pairwise distinct — no variant is
dropped and no collision is accepted (a collision instead yields the
`2 or more variants share the same value.` diagnostic inside
`parse_enum_variant_value`). -/
theorem claim_C3_tag_uniqueness (opts : Option ByteCodingEnumAttr)
    (variants : List VariantDecl) (tags : List Nat)
    (h : resolveEnumEnc opts variants = .ok tags) :
    tags.length = variants.length ∧ tags.Nodup := by
  obtain ⟨h1, h2, _, _⟩ := resolveEnumEnc_ok_spec h
  exact ⟨h1, h2⟩

theorem claim_C3_tag_uniqueness_witness :
    ([1, 2, 5] : List Nat).length =
        ([⟨⟨some 1⟩, none, []⟩, ⟨⟨none⟩, some 2, []⟩, ⟨⟨some 5⟩, none, []⟩] :
          List VariantDecl).length ∧
      ([1, 2, 5] : List Nat).Nodup :=
  claim_C3_tag_uniqueness none
    [⟨⟨some 1⟩, none, []⟩, ⟨⟨none⟩, some 2, []⟩, ⟨⟨some 5⟩, none, []⟩]
    [1, 2, 5] (by rfl)

/-- C4: with inferred tags enabled, the first variant lacking an explicit
value and discriminant receives tag 0, each later such variant receives the
previously chosen tag plus one (wrapping at 2^128), and an explicit value
re-seeds the running accumulator; in particular variants
`[A(inferred), B(explicit=10), C(inferred)]` resolve to `0, 10, 11`. -/
theorem claim_C4_inference_continuity :
    resolveEnumEnc (some ⟨none, true⟩)
        [⟨⟨none⟩, none, []⟩, ⟨⟨some 10⟩, none, []⟩, ⟨⟨none⟩, none, []⟩] =
      .ok [0, 10, 11] ∧
    (∀ (st : ResState) (v : VariantDecl), v.attr.value = none → v.disc = none →
      st.last_value = none →
      tagParseStep true st v =
        (if 0 ∈ st.found_values then .error .duplicateValue
          else .ok (0, ⟨st.found_values ++ [0], some 0⟩))) ∧
    (∀ (st : ResState) (v : VariantDecl) (p : Nat),
      v.attr.value = none → v.disc = none → st.last_value = some p →
      tagParseStep true st v =
        (if (p + 1) % 2 ^ 128 ∈ st.found_values then .error .duplicateValue
          else .ok ((p + 1) % 2 ^ 128,
            ⟨st.found_values ++ [(p + 1) % 2 ^ 128], some ((p + 1) % 2 ^ 128)⟩))) ∧
    (∀ (st : ResState) (v : VariantDecl) (x : Nat), v.attr.value = some x →
      x ∉ st.found_values →
      tagParseStep true st v = .ok (x, ⟨st.found_values ++ [x], some x⟩)) := by
  refine ⟨by rfl, ?_, ?_, ?_⟩
  · intro st v hval hdisc hlast
    by_cases hm : 0 ∈ st.found_values <;>
      simp [tagParseStep, inferredCandidate, parse_enum_variant_value,
        checkDuplicate, hval, hdisc, hlast, hm]
  · intro st v p hval hdisc hlast
    have h128 : (2 : Nat) ^ 128 = 340282366920938463463374607431768211456 := by
      norm_num
    rw [h128]
    by_cases hm :
        (p + 1) % 340282366920938463463374607431768211456 ∈ st.found_values <;>
      simp [tagParseStep, inferredCandidate, parse_enum_variant_value,
        checkDuplicate, hval, hdisc, hlast, hm, h128]
  · intro st v x hval hmem
    simp [tagParseStep, inferredCandidate, parse_enum_variant_value,
      checkDuplicate, hval, hmem]

theorem claim_C4_inference_continuity_witness :
    tagParseStep true ⟨[], none⟩ ⟨⟨none⟩, none, []⟩ =
      (if 0 ∈ ([] : List Nat) then .error .duplicateValue
        else .ok (0, ⟨[] ++ [0], some 0⟩)) ∧
    tagParseStep true ⟨[0], some 0⟩ ⟨⟨some 10⟩, none, []⟩ =
      .ok (10, ⟨[0] ++ [10], some 10⟩) ∧
    tagParseStep true ⟨[0, 10], some 10⟩ ⟨⟨none⟩, none, []⟩ =
      (if (10 + 1) % 2 ^ 128 ∈ ([0, 10] : List Nat) then .error .duplicateValue
        else .ok ((10 + 1) % 2 ^ 128,
          ⟨[0, 10] ++ [(10 + 1) % 2 ^ 128], some ((10 + 1) % 2 ^ 128)⟩)) :=
  ⟨claim_C4_inference_continuity.2.1 ⟨[], none⟩ ⟨⟨none⟩, none, []⟩ rfl rfl rfl,
    claim_C4_inference_continuity.2.2.2 ⟨[0], some 0⟩ ⟨⟨some 10⟩, none, []⟩ 10 rfl
      (by decide),
    claim_C4_inference_continuity.2.2.1 ⟨[0, 10], some 10⟩ ⟨⟨none⟩, none, []⟩ 10 rfl
      rfl rfl⟩

/-- C1 is false as stated; two closed counterexamples.  (a) A named record
with an ignored `u8` field: the value `[5, 7]` encodes without the ignored
field's bytes and decodes back as `[0, 7]` — the ignored field gets its
default, not the original 5.  (b) A tuple record whose second field carries
`order_no = 0`: the decoder rebuilds `Self(..)` positionally in *sorted*
order, so `[1, 2]` decodes back as `[2, 1]`.  Both values are well typed and
no hooks are configured. -/
theorem claim_C1_roundtrip_counterexample :
    (wellTyped (.namedRec [(⟨none, true⟩, .u8T), (⟨none, false⟩, .u8T)])
        (.recV [.u8V 5, .u8V 7]) ∧
      schemaDecodeFromBuf (.namedRec [(⟨none, true⟩, .u8T), (⟨none, false⟩, .u8T)])
          (schemaEncodeToBuf
            (.namedRec [(⟨none, true⟩, .u8T), (⟨none, false⟩, .u8T)])
            (.recV [.u8V 5, .u8V 7]) []) ≠
        some (.recV [.u8V 5, .u8V 7], [])) ∧
    (wellTyped (.tupleRec [(⟨none, false⟩, .u8T), (⟨some 0, false⟩, .u8T)])
        (.recV [.u8V 1, .u8V 2]) ∧
      schemaDecodeFromBuf
          (.tupleRec [(⟨none, false⟩, .u8T), (⟨some 0, false⟩, .u8T)])
          (schemaEncodeToBuf
            (.tupleRec [(⟨none, false⟩, .u8T), (⟨some 0, false⟩, .u8T)])
            (.recV [.u8V 1, .u8V 2]) []) ≠
        some (.recV [.u8V 1, .u8V 2], [])) := by
  refine ⟨⟨?_, by decide⟩, ?_, by decide⟩
  · exact List.Forall₂.cons ⟨rfl, by decide⟩
      (List.Forall₂.cons ⟨rfl, by decide⟩ List.Forall₂.nil)
  · exact List.Forall₂.cons ⟨rfl, by decide⟩
      (List.Forall₂.cons ⟨rfl, by decide⟩ List.Forall₂.nil)

/-- C1 (amended): for every derived record or union type with no pre/post
encode or decode hooks configured, in which additionally no field is marked
`ignore` and tuple-like records carry no explicit order numbers, and whose
union tag resolution succeeded, decoding the bytes produced by encoding a
well-typed in-memory value yields exactly that value with empty remainder. -/
theorem claim_C1_roundtrip_amended (s : Schema) (v : SValue)
    (hwt : wellTyped s v)
    (hnoignore : ∀ fields, s = .namedRec fields ∨ s = .tupleRec fields →
      ∀ f ∈ fields, (f : ByteCodingStructFieldAttr × FTy).1.ignore = false)
    (hnoorder : ∀ fields, s = .tupleRec fields →
      ∀ f ∈ fields, (f : ByteCodingStructFieldAttr × FTy).1.order_no = none)
    (hresolved : ∀ opts variants, s = .unionTy opts variants →
      ∃ tags, resolveEnumEnc opts variants = .ok tags) :
    schemaDecodeFromBuf s (schemaEncodeToBuf s v []) = some (v, []) := by
  cases s with
  | namedRec fields =>
      cases v with
      | recV vs =>
          have hwt2 : fieldsWellTyped (fields.map Prod.snd) vs := hwt
          have hlen : fields.length = vs.length := by
            have hle := hwt2.length_eq
            simpa using hle
          have h := recordDecodeNamed_encode fields vs [] hwt2
          rw [List.append_nil] at h
          have hmap : (fields.zip vs).map
              (fun fv => if fv.1.1.ignore then FTy.defVal fv.1.2 else fv.2) = vs := by
            have hcongr : (fields.zip vs).map
                (fun fv => if fv.1.1.ignore then FTy.defVal fv.1.2 else fv.2) =
                (fields.zip vs).map Prod.snd := by
              apply List.map_congr_left
              intro fv hfv
              have hig := hnoignore fields (Or.inl rfl) fv.1 (List.of_mem_zip hfv).1
              simp [hig]
            rw [hcongr]
            exact List.map_snd_zip fields vs (by omega)
          rw [hmap] at h
          exact h
      | unionV k vs => exact (hwt : False).elim
  | tupleRec fields =>
      cases v with
      | recV vs =>
          have hwt2 : fieldsWellTyped (fields.map Prod.snd) vs := hwt
          have hlen : fields.length = vs.length := by
            have hle := hwt2.length_eq
            simpa using hle
          have h := recordDecodeTuple_encode fields vs [] hwt2
            (hnoorder fields rfl)
          rw [List.append_nil] at h
          have hmap : (fields.zip vs).map
              (fun fv => if fv.1.1.ignore then FTy.defVal fv.1.2 else fv.2) = vs := by
            have hcongr : (fields.zip vs).map
                (fun fv => if fv.1.1.ignore then FTy.defVal fv.1.2 else fv.2) =
                (fields.zip vs).map Prod.snd := by
              apply List.map_congr_left
              intro fv hfv
              have hig := hnoignore fields (Or.inr rfl) fv.1 (List.of_mem_zip hfv).1
              simp [hig]
            rw [hcongr]
            exact List.map_snd_zip fields vs (by omega)
          rw [hmap] at h
          exact h
      | unionV k vs => exact (hwt : False).elim
  | unionTy opts variants =>
      cases v with
      | recV vs => exact (hwt : False).elim
      | unionV k vs =>
          obtain ⟨hk, hwt2⟩ := hwt
          obtain ⟨tags, hres⟩ := hresolved opts variants rfl
          have h := unionDecode_unionEncode [] hres hk hwt2
          rw [List.append_nil] at h
          exact h

theorem claim_C1_roundtrip_amended_witness :
    schemaDecodeFromBuf
        (.unionTy (some ⟨some .u32, false⟩)
          [⟨⟨some 3⟩, none, [.u16T]⟩, ⟨⟨some 7⟩, none, []⟩])
        (schemaEncodeToBuf
          (.unionTy (some ⟨some .u32, false⟩)
            [⟨⟨some 3⟩, none, [.u16T]⟩, ⟨⟨some 7⟩, none, []⟩])
          (.unionV 0 [.u16V 513]) []) =
      some (.unionV 0 [.u16V 513], []) :=
  claim_C1_roundtrip_amended
    (.unionTy (some ⟨some .u32, false⟩)
      [⟨⟨some 3⟩, none, [.u16T]⟩, ⟨⟨some 7⟩, none, []⟩])
    (.unionV 0 [.u16V 513])
    ⟨by norm_num, List.Forall₂.cons ⟨rfl, by decide⟩ List.Forall₂.nil⟩
    (by intro fields h; rcases h with h | h <;> cases h)
    (by intro fields h; cases h)
    (by
      intro opts variants h
      cases h
      exact ⟨[3, 7], by rfl⟩)

/-- C7: for every named record and well-typed value, decoding the encoding
yields the record in which each ignored field holds its type's default value
— not the originally encoded one — while all other fields round-trip, with an
empty remainder (ignored fields consume no bytes on decode); moreover the
encoding is unchanged when every ignored field's value is replaced by its
default, i.e. the encoder writes no bytes for ignored fields. -/
theorem claim_C7_ignore_asymmetry (fields : List (ByteCodingStructFieldAttr × FTy))
    (vs : List FVal) (hwt : wellTyped (.namedRec fields) (.recV vs)) :
    schemaDecodeFromBuf (.namedRec fields)
        (schemaEncodeToBuf (.namedRec fields) (.recV vs) []) =
      some (.recV ((fields.zip vs).map
        (fun fv => if fv.1.1.ignore then FTy.defVal fv.1.2 else fv.2)), []) ∧
    schemaEncodeToBuf (.namedRec fields)
        (.recV ((fields.zip vs).map
          (fun fv => if fv.1.1.ignore then FTy.defVal fv.1.2 else fv.2))) [] =
      schemaEncodeToBuf (.namedRec fields) (.recV vs) [] := by
  have hwt2 : fieldsWellTyped (fields.map Prod.snd) vs := hwt
  have hlen : fields.length = vs.length := by
    have hle := hwt2.length_eq
    simpa using hle
  constructor
  · have h := recordDecodeNamed_encode fields vs [] hwt2
    rw [List.append_nil] at h
    exact h
  · show recordEncodeToBuf fields
        ((fields.zip vs).map
          (fun fv => if fv.1.1.ignore then FTy.defVal fv.1.2 else fv.2)) [] =
      recordEncodeToBuf fields vs []
    simp only [recordEncodeToBuf, List.enum]
    rw [filter_enumFrom_zip_defaulted fields vs 0 hlen]

theorem claim_C7_ignore_asymmetry_witness :
    schemaDecodeFromBuf (.namedRec [(⟨none, true⟩, .u8T), (⟨none, false⟩, .u8T)])
        (schemaEncodeToBuf (.namedRec [(⟨none, true⟩, .u8T), (⟨none, false⟩, .u8T)])
          (.recV [.u8V 5, .u8V 7]) []) =
      some (.recV ((([(⟨none, true⟩, FTy.u8T), (⟨none, false⟩, FTy.u8T)] :
          List (ByteCodingStructFieldAttr × FTy)).zip
            [FVal.u8V 5, FVal.u8V 7]).map
        (fun fv => if fv.1.1.ignore then FTy.defVal fv.1.2 else fv.2)), []) ∧
    schemaEncodeToBuf (.namedRec [(⟨none, true⟩, .u8T), (⟨none, false⟩, .u8T)])
        (.recV ((([(⟨none, true⟩, FTy.u8T), (⟨none, false⟩, FTy.u8T)] :
            List (ByteCodingStructFieldAttr × FTy)).zip
              [FVal.u8V 5, FVal.u8V 7]).map
          (fun fv => if fv.1.1.ignore then FTy.defVal fv.1.2 else fv.2))) [] =
      schemaEncodeToBuf (.namedRec [(⟨none, true⟩, .u8T), (⟨none, false⟩, .u8T)])
        (.recV [.u8V 5, .u8V 7]) [] :=
  claim_C7_ignore_asymmetry [(⟨none, true⟩, .u8T), (⟨none, false⟩, .u8T)]
    [.u8V 5, .u8V 7]
    (List.Forall₂.cons ⟨rfl, by decide⟩
      (List.Forall₂.cons ⟨rfl, by decide⟩ List.Forall₂.nil))
